import Mathlib

/-!
# CYK recogniser of `main.c`

A shallow embedding of the CYK membership test of `src/main.c` and the
properties of it that the specification states.

Conventions of the embedding

* `alpha_t` (a C `char`) is a `Char`; only equality of symbols is ever used.
* A C string is the list of its characters before the NUL terminator; reading
  index `strlen` yields the terminator, reading further is out of bounds.
* `size_t` is 64 bits wide: subtraction, addition and multiplication of sizes
  are taken modulo `2 ^ 64`, the byte count of the table allocation included.
  Results about the table of an arbitrary word assume `8 * n * n < 2 ^ 64`
  for its length `n`, the range in which the allocation request does not
  wrap; results about the index arithmetic alone assume `n < 2 ^ 32`.
* The table `table_entry_t **pTable` is a list of cells, one per allocated
  slot; a cell (a singly linked list of `table_entry_t`) is the list of its
  `entry_value`s in link order.  `malloc` is taken to succeed, with a block
  of the requested number of bytes.
* Every memory access is bounds checked: a function that reads or writes
  outside an allocation returns `none`.
* The standard input of `main` is the list of characters `getc` delivers, its
  end being `EOF`; the buffer `pWord` is a list of bytes, each either written
  or not yet written, and the word `cyk` receives is the C string found there.
  Results about arbitrary inputs assume fewer than `2 ^ 63` characters, the
  range in which `arr_len * 2` does not wrap.
-/

namespace CYK

/-- The C type `alpha_t` (`typedef char alpha_t`). -/
abbrev alpha_t := Char

/-- The struct `grammar_entry_t`: one production of the grammar. -/
structure grammar_entry_t where
  non_terminal : alpha_t
  pTerminals : List alpha_t
  single_char : Bool
deriving DecidableEq, Repr

/-- The struct `grammar_t`: `grammar_entries` as a list, `grammar_size` its length. -/
abbrev grammar_t := List grammar_entry_t

/-- A table cell: the linked list hanging off one slot of `pTable`. -/
abbrev cell_t := List alpha_t

/-- The array `pTable` of cells. -/
abbrev table_t := List cell_t

/-- The modulus of `size_t` arithmetic. -/
def SIZE_MOD : Nat := 2 ^ 64

/-- Wrapping `size_t` subtraction `a - b` (for `b` a representable size). -/
def size_sub (a b : Nat) : Nat := (a + SIZE_MOD - b) % SIZE_MOD

/-- Wrapping `size_t` addition. -/
def size_add (a b : Nat) : Nat := (a + b) % SIZE_MOD

/-- Wrapping `size_t` multiplication. -/
def size_mul (a b : Nat) : Nat := (a * b) % SIZE_MOD

/-- The body of the macro `GRAMMAR_ENTRY`: fills in one entry, `single_char`
being `strlen(terminalList) == 1`. -/
def GRAMMAR_ENTRY (non_terminal : alpha_t) (terminalList : String) : grammar_entry_t :=
  { non_terminal := non_terminal
    pTerminals := terminalList.toList
    single_char := terminalList.toList.length == 1 }

/-- The macro `TABLE_IDX`: `(sub_len) - 1 + (((offset) - 1) * (word_len))`,
1-based in `sub_len` and `offset`. -/
def TABLE_IDX (word_len sub_len offset : Nat) : Nat :=
  size_add (size_sub sub_len 1) (size_mul (size_sub offset 1) word_len)

/-- The function `grammar_init`: the hard-coded grammar. -/
def grammar_init : grammar_t :=
  [ GRAMMAR_ENTRY 'S' "AB",
    GRAMMAR_ENTRY 'A' "CD",
    GRAMMAR_ENTRY 'A' "CF",
    GRAMMAR_ENTRY 'B' "c",
    GRAMMAR_ENTRY 'B' "EB",
    GRAMMAR_ENTRY 'C' "a",
    GRAMMAR_ENTRY 'D' "b",
    GRAMMAR_ENTRY 'E' "c",
    GRAMMAR_ENTRY 'F' "AD" ]

/-- The function `table_init` on a block that holds `len` slots: every slot
becomes the empty list (`NULL`). -/
def table_init (len : Nat) : table_t := List.replicate len []

/-- The function `table_char_exists`: linear scan of a cell for `alpha`. -/
def table_char_exists : cell_t → alpha_t → Bool
  | [], _ => false
  | entry_value :: pNext, alpha =>
    if entry_value = alpha then true else table_char_exists pNext alpha

/-- The walk of `table_push_back` to the last `pNext` link of a cell, where the
entry made by `table_new_entry` is stored. -/
def cell_push_back : cell_t → alpha_t → cell_t
  | [], alpha => [alpha]
  | entry_value :: pNext, alpha => entry_value :: cell_push_back pNext alpha

/-- The function `table_push_back`: appends `alpha` to the cell in slot
`tableIdx`; `none` when the slot lies outside the table. -/
def table_push_back (pTable : table_t) (tableIdx : Nat) (alpha : alpha_t) : Option table_t :=
  match pTable[tableIdx]? with
  | none => none
  | some pEntry => some (pTable.set tableIdx (cell_push_back pEntry alpha))

/-- Read of `s[k]` in a C string whose allocation holds the characters and the
NUL terminator. -/
def str_at (s : List alpha_t) (k : Nat) : Option alpha_t :=
  if k < s.length then s[k]?
  else if k = s.length then some (Char.ofNat 0)
  else none

/-- A `for` loop over the values `xs` whose body may fail; the table is the
loop-carried state. -/
def loopM {α : Type} (body : α → table_t → Option table_t) : List α → table_t → Option table_t
  | [], t => some t
  | x :: rest, t => (body x t).bind (loopM body rest)

/-- The values of `x` in `for (x = lo; x <= hi; x++)`. -/
def upto (lo hi : Nat) : List Nat := List.range' lo (hi + 1 - lo)

/-- Body of the rule loop of the base case (lines 153-157), for position `i`. -/
def cyk_base_rule (pWord : List alpha_t) (word_len i : Nat) (pRule : grammar_entry_t)
    (pTable : table_t) : Option table_t :=
  if !pRule.single_char then some pTable
  else
    match str_at pRule.pTerminals 0, str_at pWord (size_sub i 1) with
    | some t0, some wi =>
      if t0 != wi then some pTable
      else table_push_back pTable (TABLE_IDX word_len 1 i) pRule.non_terminal
    | _, _ => none

/-- The base-case loops (lines 151-159). -/
def cyk_base (pGrammar : grammar_t) (pWord : List alpha_t) (word_len : Nat)
    (pTable : table_t) : Option table_t :=
  loopM (fun i => loopM (cyk_base_rule pWord word_len i) pGrammar) (upto 1 word_len) pTable

/-- Body of the rule loop of the inductive case (lines 165-177), for span `j`,
start `i` and split `k`. -/
def cyk_step_rule (word_len j i k : Nat) (pRule : grammar_entry_t)
    (pTable : table_t) : Option table_t :=
  if pRule.single_char then some pTable
  else
    match str_at pRule.pTerminals 0, str_at pRule.pTerminals 1 with
    | some c1, some c2 =>
      match pTable[TABLE_IDX word_len k i]? with
      | none => none
      | some left =>
        if table_char_exists left c1 then
          match pTable[TABLE_IDX word_len (size_sub j k) (size_add i k)]? with
          | none => none
          | some right =>
            if table_char_exists right c2 then
              table_push_back pTable (TABLE_IDX word_len j i) pRule.non_terminal
            else some pTable
        else some pTable
    | _, _ => none

/-- The inductive-case loops (lines 161-181). -/
def cyk_inductive (pGrammar : grammar_t) (word_len : Nat) (pTable : table_t) : Option table_t :=
  loopM (fun j =>
    loopM (fun i =>
      loopM (fun k => loopM (cyk_step_rule word_len j i k) pGrammar)
        (upto 1 (size_sub j 1)))
      (upto 1 (size_add (size_sub word_len j) 1)))
    (upto 2 word_len) pTable

/-- The value of `sizeof(table_entry_t*)`: a pointer of the 64-bit target. -/
def PTR_SIZE : Nat := 8

/-- The number of whole table slots in the block returned by
`malloc(sizeof(table_entry_t*) * arr_size)` (line 147); the byte count is a
`size_t` product and wraps like one. -/
def table_slots (arr_size : Nat) : Nat := size_mul PTR_SIZE arr_size / PTR_SIZE

/-- Lines 147-149 of `cyk`: the allocation of the table and the call
`table_init(pTable, arr_size)` on it; `none` when `table_init` stores beyond
the allocated block. -/
def cyk_alloc (arr_size : Nat) : Option table_t :=
  if arr_size ≤ table_slots arr_size then some (table_init arr_size) else none

/-- The table as it stands after the allocation and the base-case loops of
`cyk` (lines 144-159). -/
def cyk_after_base (pGrammar : grammar_t) (pWord : List alpha_t) : Option table_t :=
  let word_len := pWord.length
  let arr_size := size_mul word_len word_len
  (cyk_alloc arr_size).bind (cyk_base pGrammar pWord word_len)

/-- The table as it stands after the two fill phases of `cyk` (lines 144-181). -/
def cyk_fill (pGrammar : grammar_t) (pWord : List alpha_t) : Option table_t :=
  (cyk_after_base pGrammar pWord).bind (cyk_inductive pGrammar pWord.length)

/-- The final scan of `cyk` (lines 183-191) for the literal `'S'`. -/
def cyk_final : cell_t → Bool
  | [] => false
  | entry_value :: pNext => if entry_value = 'S' then true else cyk_final pNext

/-- The function `cyk`; `none` when it accesses memory out of bounds. -/
def cyk (pGrammar : grammar_t) (pWord : List alpha_t) : Option Bool :=
  (cyk_fill pGrammar pWord).bind fun pTable =>
    (pTable[TABLE_IDX pWord.length pWord.length 1]?).map cyk_final

/-! ## Specification-side notions -/

/-- Chomsky normal form as `cyk` relies on it: every entry has a right-hand
side of one symbol with `single_char` set, or of two symbols with it cleared. -/
def CNF (g : grammar_t) : Prop :=
  ∀ r ∈ g, (r.pTerminals.length = 1 ∧ r.single_char = true) ∨
    (r.pTerminals.length = 2 ∧ r.single_char = false)

instance (g : grammar_t) : Decidable (CNF g) :=
  inferInstanceAs (Decidable (∀ r ∈ g, (r.pTerminals.length = 1 ∧ r.single_char = true) ∨
    (r.pTerminals.length = 2 ∧ r.single_char = false)))

/-- The grammar lists the unit rule `A -> c`. -/
def HasUnitRule (g : grammar_t) (A c : alpha_t) : Prop :=
  ∃ r ∈ g, r.non_terminal = A ∧ r.pTerminals = [c]

instance (g : grammar_t) (A c : alpha_t) : Decidable (HasUnitRule g A c) :=
  inferInstanceAs (Decidable (∃ r ∈ g, r.non_terminal = A ∧ r.pTerminals = [c]))

/-- The grammar lists the binary rule `A -> B C`. -/
def HasBinaryRule (g : grammar_t) (A B C : alpha_t) : Prop :=
  ∃ r ∈ g, r.non_terminal = A ∧ r.pTerminals = [B, C]

instance (g : grammar_t) (A B C : alpha_t) : Decidable (HasBinaryRule g A B C) :=
  inferInstanceAs (Decidable (∃ r ∈ g, r.non_terminal = A ∧ r.pTerminals = [B, C]))

/-- Derivation of a word from a symbol: the least relation closed under the
unit rules and the binary rules of the grammar. -/
inductive Derives (g : grammar_t) : alpha_t → List alpha_t → Prop
  | unit (A c : alpha_t) : HasUnitRule g A c → Derives g A [c]
  | binary (A B C : alpha_t) (u v : List alpha_t) : HasBinaryRule g A B C →
      u ≠ [] → v ≠ [] → Derives g B u → Derives g C v → Derives g A (u ++ v)

/-- The pair `(span, start)` names a cell of the triangular table for a word
of length `n`. -/
def ValidCell (n span start : Nat) : Prop :=
  1 ≤ span ∧ span ≤ n ∧ 1 ≤ start ∧ start + span ≤ n + 1

instance (n span start : Nat) : Decidable (ValidCell n span start) :=
  inferInstanceAs (Decidable (1 ≤ span ∧ span ≤ n ∧ 1 ≤ start ∧ start + span ≤ n + 1))

/-- The substring of `w` of length `span` that starts at the 1-based position
`start`. -/
def subword (w : List alpha_t) (start span : Nat) : List alpha_t :=
  (w.drop (start - 1)).take span

/-- The start symbol in the words of the specification: the left-hand side of
the first-listed rule. -/
def spec_startSymbol (g : grammar_t) : Option alpha_t :=
  g.head?.map grammar_entry_t.non_terminal

/-- The content of slot `idx` of a table (empty for a slot that does not exist). -/
def cellAt (t : table_t) (idx : Nat) : cell_t := (t[idx]?).getD []

/-- The second table has the size of the first and every entry of every cell
of the first is still an entry of the same cell. -/
def Ext (t t' : table_t) : Prop :=
  t'.length = t.length ∧ ∀ idx a, a ∈ cellAt t idx → a ∈ cellAt t' idx

/-! ## Invariants of the fill -/

/-- Every entry of every valid cell derives the substring the cell stands for. -/
def Sound (g : grammar_t) (w : List alpha_t) (t : table_t) : Prop :=
  ∀ j i, ValidCell w.length j i →
    ∀ A ∈ cellAt t (TABLE_IDX w.length j i), Derives g A (subword w i j)

/-- The cell `(j, i)` holds every symbol that derives its substring. -/
def CompleteAt (g : grammar_t) (w : List alpha_t) (j i : Nat) (t : table_t) : Prop :=
  ∀ A, Derives g A (subword w i j) → A ∈ cellAt t (TABLE_IDX w.length j i)

/-- All valid cells of span below `J` are complete. -/
def CompleteBelow (g : grammar_t) (w : List alpha_t) (J : Nat) (t : table_t) : Prop :=
  ∀ j i, ValidCell w.length j i → j < J → CompleteAt g w j i t

/-- The invariant of the fill while the cells of span `J` are being computed. -/
def FillInv (g : grammar_t) (w : List alpha_t) (J : Nat) (t : table_t) : Prop :=
  t.length = w.length * w.length ∧ Sound g w t ∧ CompleteBelow g w J t

/-- What the rule loop owes for the rule `r` at span `j`, start `i`, split `k`. -/
def RuleDone (g : grammar_t) (w : List alpha_t) (j i k : Nat) (r : grammar_entry_t)
    (t : table_t) : Prop :=
  ∀ B C, r.pTerminals = [B, C] → Derives g B (subword w i k) →
    Derives g C (subword w (i + k) (j - k)) →
    r.non_terminal ∈ cellAt t (TABLE_IDX w.length j i)

/-- The states of the table during the fill, over-approximated: the table
that the allocation and `table_init` leave, and any table obtained from such a state by one run of the rule-loop
body of the base case or of the inductive case (for any loop indices). Every
table the fill passes through, and the one it ends with, is of this kind. -/
inductive FillReach (g : grammar_t) (w : List alpha_t) : table_t → Prop
  | init (t : table_t) : cyk_alloc (size_mul w.length w.length) = some t → FillReach g w t
  | base (i : Nat) (r : grammar_entry_t) (t t' : table_t) : r ∈ g → FillReach g w t →
      cyk_base_rule w w.length i r t = some t' → FillReach g w t'
  | step (j i k : Nat) (r : grammar_entry_t) (t t' : table_t) : r ∈ g → FillReach g w t →
      cyk_step_rule w.length j i k r t = some t' → FillReach g w t'

/-- Every entry of every cell is the left-hand side of a rule of the grammar. -/
def HeadsOnly (g : grammar_t) (t : table_t) : Prop :=
  ∀ c ∈ t, ∀ a ∈ c, a ∈ g.map grammar_entry_t.non_terminal

/-- Entries as the macro `GRAMMAR_ENTRY` fills them in: `single_char` is set
exactly when the right-hand side has length one. -/
def EntriesBuilt (g : grammar_t) : Prop :=
  ∀ r ∈ g, r.single_char = (r.pTerminals.length == 1)

instance (g : grammar_t) : Decidable (EntriesBuilt g) :=
  inferInstanceAs (Decidable (∀ r ∈ g, r.single_char = (r.pTerminals.length == 1)))

/-- The left-hand sides, in rule order, of the rules whose right-hand side is
the single symbol `c`. -/
def unit_heads (g : grammar_t) (c : alpha_t) : List alpha_t :=
  (g.filter (fun r => decide (r.pTerminals = [c]))).map grammar_entry_t.non_terminal

/-- The word `a^n b^n c^m`. -/
def anbncm (n m : Nat) : List alpha_t :=
  List.replicate n 'a' ++ List.replicate n 'b' ++ List.replicate m 'c'

/-- The words each symbol of the reference grammar stands for:
`S` for `a^n b^n c^m`, `A` for `a^n b^n`, `F` for `a^n b^(n+1)`, `B` for `c^m`
(`n, m >= 1`), and `C`, `D`, `E` for the single letters `a`, `b`, `c`. -/
def RefLang (X : alpha_t) (s : List alpha_t) : Prop :=
  (X = 'S' ∧ ∃ n m, 1 ≤ n ∧ 1 ≤ m ∧ s = anbncm n m) ∨
  (X = 'A' ∧ ∃ n, 1 ≤ n ∧ s = List.replicate n 'a' ++ List.replicate n 'b') ∨
  (X = 'F' ∧ ∃ n, 1 ≤ n ∧ s = List.replicate n 'a' ++ List.replicate (n + 1) 'b') ∨
  (X = 'B' ∧ ∃ m, 1 ≤ m ∧ s = List.replicate m 'c') ∨
  (X = 'C' ∧ s = ['a']) ∨ (X = 'D' ∧ s = ['b']) ∨ (X = 'E' ∧ s = ['c'])

/-- The NUL character that terminates a C string. -/
def NUL : alpha_t := Char.ofNat 0

/-- The test `c == '\n' || c == '\r'` of `main`'s read loop (line 211). -/
def is_line_end (c : alpha_t) : Bool := c == '\n' || c == '\r'

/-- A heap buffer of `char`: one slot per allocated byte, `none` for a byte
that has not been written yet. -/
abbrev buffer_t := List (Option alpha_t)

/-- The locals `word_len`, `arr_len` and the buffer `pWord` of `main`. -/
structure read_state where
  word_len : Nat
  arr_len : Nat
  pWord : buffer_t
deriving DecidableEq, Repr

/-- The library call `realloc(p, size)`, taken to succeed: the old contents up
to `size` bytes, followed by unwritten bytes. -/
def realloc (p : buffer_t) (size : Nat) : buffer_t :=
  p.take size ++ List.replicate (size - p.length) none

/-- The store `p[k] = c`; `none` when `k` lies outside the allocation. -/
def buf_write (p : buffer_t) (k : Nat) (c : alpha_t) : Option buffer_t :=
  if k < p.length then some (p.set k (some c)) else none

/-- The state of `main` before its read loop (lines 204-206). -/
def read_init : read_state :=
  { word_len := 0, arr_len := 16, pWord := List.replicate 16 none }

/-- The part of the body of `main`'s read loop after the line-end test
(lines 215-221): grow the buffer when `word_len + 2 > arr_len`, then store the
character and advance `word_len`. -/
def main_read_body (c : alpha_t) (s : read_state) : Option read_state :=
  let s1 : read_state :=
    if size_add s.word_len 2 > s.arr_len then
      { word_len := s.word_len
        arr_len := size_mul s.arr_len 2
        pWord := realloc s.pWord (size_mul s.arr_len 2) }
    else s
  match buf_write s1.pWord s1.word_len c with
  | none => none
  | some p =>
    some { word_len := size_add s1.word_len 1, arr_len := s1.arr_len, pWord := p }

/-- The read loop of `main` (lines 210-222) over the characters that `getc`
delivers; the end of the list is `EOF`. -/
def main_read_loop : List alpha_t → read_state → Option read_state
  | [], s => some s
  | c :: rest, s =>
    if is_line_end c then some s
    else (main_read_body c s).bind (main_read_loop rest)

/-- The C string that starts at the beginning of a buffer: its characters
before the first NUL; `none` when the scan meets an unwritten byte or leaves
the allocation. -/
def c_string : buffer_t → Option (List alpha_t)
  | [] => none
  | none :: _ => none
  | some c :: rest => if c = NUL then some [] else (c_string rest).map (fun s => c :: s)

/-- The word `main` hands to `cyk` (lines 204-227): the read loop, the store of
the terminator `pWord[word_len] = 0`, and the C string `cyk` finds at `pWord`. -/
def main_word (input : List alpha_t) : Option (List alpha_t) :=
  (main_read_loop input read_init).bind fun s =>
    (buf_write s.pWord s.word_len NUL).bind c_string

/-- The function `main` as far as its result goes: `cykResult` for the given
standard input. -/
def main (input : List alpha_t) : Option Bool :=
  (main_word input).bind (cyk grammar_init)

/-- The invariant of `main`'s read loop: room for one more byte, and `arr_len`
is the size of the allocation `pWord`. -/
def ReadInv (s : read_state) : Prop :=
  s.word_len + 1 ≤ s.arr_len ∧ s.pWord.length = s.arr_len

instance (s : read_state) : Decidable (ReadInv s) :=
  inferInstanceAs (Decidable (s.word_len + 1 ≤ s.arr_len ∧ s.pWord.length = s.arr_len))

/-! ## Size arithmetic -/

theorem SIZE_MOD_eq : SIZE_MOD = 18446744073709551616 := by
  norm_num [SIZE_MOD]

theorem size_sub_eq (a b : Nat) (hb : b ≤ a) (ha : a < SIZE_MOD) : size_sub a b = a - b := by
  unfold size_sub
  have h : a + SIZE_MOD - b = (a - b) + SIZE_MOD := by omega
  rw [h, Nat.add_mod_right, Nat.mod_eq_of_lt (by omega)]

theorem size_add_eq (a b : Nat) (h : a + b < SIZE_MOD) : size_add a b = a + b := by
  unfold size_add
  exact Nat.mod_eq_of_lt h

theorem size_mul_eq (a b : Nat) (h : a * b < SIZE_MOD) : size_mul a b = a * b := by
  unfold size_mul
  exact Nat.mod_eq_of_lt h

theorem sq_lt_SIZE_MOD (n : Nat) (hn : n < 2 ^ 32) : n * n < SIZE_MOD := by
  rw [SIZE_MOD_eq]
  have h : n ≤ 4294967295 := by omega
  calc n * n ≤ 4294967295 * 4294967295 := Nat.mul_le_mul h h
    _ < 18446744073709551616 := by norm_num

theorem cell_offset_lt (n span start : Nat) (h : ValidCell n span start) :
    (span - 1) + (start - 1) * n < n * n := by
  obtain ⟨h1, h2, h3, h4⟩ := h
  have hs : start - 1 ≤ n - 1 := by omega
  have hm : (start - 1) * n ≤ (n - 1) * n := Nat.mul_le_mul_right n hs
  have hn : (n - 1) * n + n = n * n := by
    cases n with
    | zero => omega
    | succ m => simp [Nat.succ_mul]
  omega

theorem TABLE_IDX_eq (n span start : Nat) (hn : n < 2 ^ 32) (h : ValidCell n span start) :
    TABLE_IDX n span start = (span - 1) + (start - 1) * n := by
  have hlt := cell_offset_lt n span start h
  have hsq := sq_lt_SIZE_MOD n hn
  obtain ⟨h1, h2, h3, h4⟩ := h
  have hM := SIZE_MOD_eq
  unfold TABLE_IDX
  rw [size_sub_eq span 1 h1 (by omega), size_sub_eq start 1 h3 (by omega),
    size_mul_eq _ _ (by omega), size_add_eq _ _ (by omega)]

theorem TABLE_IDX_lt (n span start : Nat) (hn : n < 2 ^ 32) (h : ValidCell n span start) :
    TABLE_IDX n span start < n * n := by
  rw [TABLE_IDX_eq n span start hn h]
  exact cell_offset_lt n span start h

theorem TABLE_IDX_inj (n j i j' i' : Nat) (hn : n < 2 ^ 32) (h : ValidCell n j i)
    (h' : ValidCell n j' i') (he : TABLE_IDX n j i = TABLE_IDX n j' i') : j = j' ∧ i = i' := by
  rw [TABLE_IDX_eq n j i hn h, TABLE_IDX_eq n j' i' hn h'] at he
  obtain ⟨h1, h2, h3, h4⟩ := h
  obtain ⟨h1', h2', h3', h4'⟩ := h'
  have hpos : 0 < n := by omega
  have hm := congrArg (fun x => x % n) he
  have hd := congrArg (fun x => x / n) he
  simp only [Nat.add_mul_mod_self_right, Nat.add_mul_div_right _ _ hpos] at hm hd
  rw [Nat.mod_eq_of_lt (by omega), Nat.mod_eq_of_lt (by omega)] at hm
  rw [Nat.div_eq_of_lt (by omega), Nat.div_eq_of_lt (by omega)] at hd
  omega

/-! ## Cells and tables -/

theorem table_char_exists_iff (c : cell_t) (a : alpha_t) :
    table_char_exists c a = true ↔ a ∈ c := by
  induction c with
  | nil => simp [table_char_exists]
  | cons x xs ih =>
    unfold table_char_exists
    by_cases h : x = a
    · simp [h]
    · have h2 : ¬ a = x := fun e => h e.symm
      simp [h, h2, ih]

theorem cell_push_back_eq (c : cell_t) (a : alpha_t) : cell_push_back c a = c ++ [a] := by
  induction c with
  | nil => rfl
  | cons x xs ih => simp [cell_push_back, ih]

theorem cyk_final_iff (c : cell_t) : cyk_final c = true ↔ 'S' ∈ c := by
  induction c with
  | nil => simp [cyk_final]
  | cons x xs ih =>
    unfold cyk_final
    by_cases h : x = 'S'
    · simp [h]
    · have h2 : ¬ 'S' = x := fun e => h e.symm
      simp [h, h2, ih]

theorem getElem?_eq_some_cellAt (t : table_t) (idx : Nat) (h : idx < t.length) :
    t[idx]? = some (cellAt t idx) := by
  unfold cellAt
  rw [List.getElem?_eq_getElem h]
  rfl

theorem table_push_back_some (t : table_t) (idx : Nat) (a : alpha_t) (h : idx < t.length) :
    table_push_back t idx a = some (t.set idx (cellAt t idx ++ [a])) := by
  unfold table_push_back
  rw [getElem?_eq_some_cellAt t idx h]
  simp [cell_push_back_eq]

theorem table_push_back_none (t : table_t) (idx : Nat) (a : alpha_t) (h : t.length ≤ idx) :
    table_push_back t idx a = none := by
  unfold table_push_back
  rw [List.getElem?_eq_none h]

theorem cellAt_set_self (t : table_t) (idx : Nat) (c : cell_t) (h : idx < t.length) :
    cellAt (t.set idx c) idx = c := by
  unfold cellAt
  simp [h]

theorem cellAt_set_other (t : table_t) (idx idx' : Nat) (c : cell_t) (h : idx ≠ idx') :
    cellAt (t.set idx c) idx' = cellAt t idx' := by
  unfold cellAt
  rw [List.getElem?_set_ne h]

theorem Ext_refl (t : table_t) : Ext t t := ⟨rfl, fun _ _ h => h⟩

theorem Ext_trans (a b c : table_t) (h1 : Ext a b) (h2 : Ext b c) : Ext a c :=
  ⟨h2.1.trans h1.1, fun idx x hx => h2.2 idx x (h1.2 idx x hx)⟩

theorem Ext_set (t : table_t) (idx : Nat) (a : alpha_t) (h : idx < t.length) :
    Ext t (t.set idx (cellAt t idx ++ [a])) := by
  refine ⟨by simp, fun idx' x hx => ?_⟩
  by_cases e : idx = idx'
  · subst e
    rw [cellAt_set_self t idx _ h]
    exact List.mem_append_left _ hx
  · rw [cellAt_set_other t idx idx' _ e]
    exact hx

/-! ## Loops -/

theorem loopM_spec {α : Type} (P : table_t → Prop) (Q : α → table_t → Prop)
    (body : α → table_t → Option table_t)
    (hQ : ∀ x t t', Q x t → Ext t t' → Q x t') :
    ∀ (xs : List α),
      (∀ x ∈ xs, ∀ t, P t → ∃ t', body x t = some t' ∧ P t' ∧ Ext t t' ∧ Q x t') →
      ∀ t, P t → ∃ t', loopM body xs t = some t' ∧ P t' ∧ Ext t t' ∧ ∀ x ∈ xs, Q x t' := by
  intro xs
  induction xs with
  | nil =>
    intro _ t hP
    exact ⟨t, rfl, hP, Ext_refl t, by simp⟩
  | cons y ys ih =>
    intro hbody t hP
    obtain ⟨t1, e1, hP1, hE1, hQ1⟩ := hbody y (List.mem_cons_self y ys) t hP
    obtain ⟨t2, e2, hP2, hE2, hQ2⟩ :=
      ih (fun x hx => hbody x (List.mem_cons_of_mem y hx)) t1 hP1
    refine ⟨t2, ?_, hP2, Ext_trans _ _ _ hE1 hE2, ?_⟩
    · simp [loopM, e1, e2]
    · intro x hx
      rcases List.mem_cons.mp hx with rfl | hx
      · exact hQ x t1 t2 hQ1 hE2
      · exact hQ2 x hx

theorem loopM_cons {α : Type} (body : α → table_t → Option table_t) (x : α) (rest : List α)
    (t : table_t) : loopM body (x :: rest) t = (body x t).bind (loopM body rest) := rfl

theorem mem_upto (lo hi x : Nat) : x ∈ upto lo hi ↔ lo ≤ x ∧ x ≤ hi := by
  unfold upto
  rw [List.mem_range']
  constructor
  · rintro ⟨i, hi', rfl⟩
    omega
  · rintro ⟨h1, h2⟩
    exact ⟨x - lo, by omega, by omega⟩

/-! ## Substrings -/

theorem subword_length (w : List alpha_t) (j i : Nat) (h : ValidCell w.length j i) :
    (subword w i j).length = j := by
  obtain ⟨h1, h2, h3, h4⟩ := h
  unfold subword
  simp
  omega

theorem subword_split (w : List alpha_t) (i j k : Nat) (hi : 1 ≤ i) (hk : k ≤ j) :
    subword w i j = subword w i k ++ subword w (i + k) (j - k) := by
  unfold subword
  have e : i + k - 1 = (i - 1) + k := by omega
  have e2 : j = k + (j - k) := by omega
  rw [e, ← List.drop_drop]
  conv_lhs => rw [e2]
  rw [List.take_add]

theorem subword_one (w : List alpha_t) (i : Nat) (c : alpha_t) :
    subword w i 1 = [c] ↔ w[i - 1]? = some c := by
  unfold subword
  rw [List.take_one]
  cases h : List.drop (i - 1) w with
  | nil =>
    have := List.drop_eq_nil_iff.mp h
    simp [List.getElem?_eq_none this]
  | cons x xs =>
    have hx : w[i - 1]? = some x := by
      have e := List.head?_drop w (i - 1)
      rw [h] at e
      simpa using e.symm
    simp [hx]

/-! ## Preservation of the fill invariant -/

theorem CompleteAt_mono (g : grammar_t) (w : List alpha_t) (j i : Nat) (t t' : table_t)
    (h : CompleteAt g w j i t) (e : Ext t t') : CompleteAt g w j i t' :=
  fun A hA => e.2 _ A (h A hA)

theorem CompleteBelow_mono (g : grammar_t) (w : List alpha_t) (J : Nat) (t t' : table_t)
    (h : CompleteBelow g w J t) (e : Ext t t') : CompleteBelow g w J t' :=
  fun j i hv hj => CompleteAt_mono g w j i t t' (h j i hv hj) e

theorem Sound_set (g : grammar_t) (w : List alpha_t) (t : table_t) (j i : Nat) (A : alpha_t)
    (hn : w.length < 2 ^ 32) (hlen : t.length = w.length * w.length)
    (hv : ValidCell w.length j i) (hS : Sound g w t) (hA : Derives g A (subword w i j)) :
    Sound g w (t.set (TABLE_IDX w.length j i) (cellAt t (TABLE_IDX w.length j i) ++ [A])) := by
  intro j' i' hv' X hX
  by_cases e : TABLE_IDX w.length j i = TABLE_IDX w.length j' i'
  · obtain ⟨rfl, rfl⟩ := TABLE_IDX_inj _ _ _ _ _ hn hv hv' e
    have hlt : TABLE_IDX w.length j i < t.length := by
      rw [hlen]; exact TABLE_IDX_lt _ _ _ hn hv
    rw [cellAt_set_self t _ _ hlt] at hX
    rcases List.mem_append.mp hX with h | h
    · exact hS j i hv X h
    · rw [List.mem_singleton.mp h]; exact hA
  · rw [cellAt_set_other t _ _ _ e] at hX
    exact hS j' i' hv' X hX

/-- The effect of one push into a valid cell on the invariant. -/
theorem push_spec (g : grammar_t) (w : List alpha_t) (J : Nat) (t : table_t) (j i : Nat)
    (A : alpha_t) (hn : w.length < 2 ^ 32) (hv : ValidCell w.length j i)
    (hP : FillInv g w J t) (hA : Derives g A (subword w i j)) :
    ∃ t', table_push_back t (TABLE_IDX w.length j i) A = some t' ∧ FillInv g w J t' ∧
      Ext t t' ∧ A ∈ cellAt t' (TABLE_IDX w.length j i) := by
  obtain ⟨hlen, hS, hC⟩ := hP
  have hlt : TABLE_IDX w.length j i < t.length := by
    rw [hlen]; exact TABLE_IDX_lt _ _ _ hn hv
  have hE := Ext_set t _ A hlt
  refine ⟨_, table_push_back_some t _ A hlt, ⟨?_, ?_, ?_⟩, hE, ?_⟩
  · simp [hlen]
  · exact Sound_set g w t j i A hn hlen hv hS hA
  · exact CompleteBelow_mono g w J _ _ hC hE
  · rw [cellAt_set_self t _ _ hlt]
    simp

theorem derives_one (g : grammar_t) (A c : alpha_t) (h : Derives g A [c]) :
    HasUnitRule g A c := by
  generalize e : [c] = s at h
  cases h with
  | unit _ c' hr =>
    have : c = c' := by simpa using e
    rw [this]; exact hr
  | binary _ B C u v _ hu hv _ _ =>
    have h1 := List.length_pos.mpr hu
    have h2 := List.length_pos.mpr hv
    have := congrArg List.length e
    simp at this
    omega

theorem derives_split (g : grammar_t) (A : alpha_t) (s : List alpha_t) (h : Derives g A s)
    (hs : 2 ≤ s.length) :
    ∃ B C u v, HasBinaryRule g A B C ∧ u ≠ [] ∧ v ≠ [] ∧ s = u ++ v ∧
      Derives g B u ∧ Derives g C v := by
  cases h with
  | unit _ c _ => simp at hs
  | binary _ B C u v hr hu hv hB hC => exact ⟨B, C, u, v, hr, hu, hv, rfl, hB, hC⟩

theorem str_at_zero_cons (c : alpha_t) (l : List alpha_t) : str_at (c :: l) 0 = some c := by
  simp [str_at]

theorem str_at_one_cons (c d : alpha_t) (l : List alpha_t) :
    str_at (c :: d :: l) 1 = some d := by
  simp [str_at]

theorem str_at_lt (w : List alpha_t) (k : Nat) (h : k < w.length) : str_at w k = w[k]? := by
  simp [str_at, h]

/-! ## The base case -/

theorem cellAt_table_init (m idx : Nat) : cellAt (table_init m) idx = [] := by
  unfold cellAt table_init
  by_cases h : idx < m
  · simp [List.getElem?_replicate, h]
  · simp [List.getElem?_replicate, h]

theorem FillInv_init (g : grammar_t) (w : List alpha_t) (hn : w.length < 2 ^ 32) :
    FillInv g w 1 (table_init (size_mul w.length w.length)) := by
  refine ⟨?_, ?_, ?_⟩
  · rw [size_mul_eq _ _ (sq_lt_SIZE_MOD _ hn)]
    simp [table_init]
  · intro j i _ A hA
    rw [cellAt_table_init] at hA
    simp at hA
  · intro j i hv hj
    have := hv.1
    omega

theorem word_at (w : List alpha_t) (i : Nat) (h1 : 1 ≤ i) (h2 : i ≤ w.length)
    (hn : w.length < 2 ^ 32) :
    ∃ c, str_at w (size_sub i 1) = some c ∧ subword w i 1 = [c] := by
  have hM := SIZE_MOD_eq
  rw [size_sub_eq i 1 h1 (by omega), str_at_lt w (i - 1) (by omega)]
  have hlt : i - 1 < w.length := by omega
  refine ⟨w[i - 1], List.getElem?_eq_getElem hlt, ?_⟩
  rw [subword_one]
  exact List.getElem?_eq_getElem hlt

theorem cyk_base_rule_spec (g : grammar_t) (w : List alpha_t) (hn : w.length < 2 ^ 32)
    (hcnf : CNF g) (i : Nat) (h1 : 1 ≤ i) (h2 : i ≤ w.length) (r : grammar_entry_t)
    (hr : r ∈ g) (t : table_t) (hP : FillInv g w 1 t) :
    ∃ t', cyk_base_rule w w.length i r t = some t' ∧ FillInv g w 1 t' ∧ Ext t t' ∧
      (∀ c, r.pTerminals = [c] → subword w i 1 = [c] →
        r.non_terminal ∈ cellAt t' (TABLE_IDX w.length 1 i)) := by
  obtain ⟨wi, hwi, hsub⟩ := word_at w i h1 h2 hn
  have hv : ValidCell w.length 1 i := ⟨le_refl 1, by omega, h1, by omega⟩
  unfold cyk_base_rule
  rcases hcnf r hr with ⟨hl, hs⟩ | ⟨hl, hs⟩
  · obtain ⟨c', hc'⟩ := List.length_eq_one.mp hl
    rw [hs, hc', str_at_zero_cons, hwi]
    by_cases e : c' = wi
    · subst e
      have hD : Derives g r.non_terminal (subword w i 1) := by
        rw [hsub]
        exact Derives.unit _ _ ⟨r, hr, rfl, hc'⟩
      obtain ⟨t', e1, e2, e3, e4⟩ := push_spec g w 1 t 1 i r.non_terminal hn hv hP hD
      refine ⟨t', ?_, e2, e3, fun _ _ _ => e4⟩
      simpa using e1
    · refine ⟨t, ?_, hP, Ext_refl t, ?_⟩
      · simp [e]
      · intro c hc hsc
        rw [hsub] at hsc
        have q1 : c' = c := by simpa using hc
        have q2 : wi = c := by simpa using hsc
        exact absurd (q1.trans q2.symm) e
  · refine ⟨t, ?_, hP, Ext_refl t, ?_⟩
    · simp [hs]
    · intro c hc
      rw [hc] at hl
      simp at hl

theorem cyk_base_pos_spec (g : grammar_t) (w : List alpha_t) (hn : w.length < 2 ^ 32)
    (hcnf : CNF g) (i : Nat) (h1 : 1 ≤ i) (h2 : i ≤ w.length) (t : table_t)
    (hP : FillInv g w 1 t) :
    ∃ t', loopM (cyk_base_rule w w.length i) g t = some t' ∧ FillInv g w 1 t' ∧ Ext t t' ∧
      CompleteAt g w 1 i t' := by
  have hmono : ∀ (r : grammar_entry_t) (a b : table_t),
      (∀ c, r.pTerminals = [c] → subword w i 1 = [c] →
        r.non_terminal ∈ cellAt a (TABLE_IDX w.length 1 i)) → Ext a b →
      (∀ c, r.pTerminals = [c] → subword w i 1 = [c] →
        r.non_terminal ∈ cellAt b (TABLE_IDX w.length 1 i)) :=
    fun r a b hq hE c hc hs => hE.2 _ _ (hq c hc hs)
  obtain ⟨t', e1, e2, e3, e4⟩ :=
    loopM_spec (FillInv g w 1) _ (cyk_base_rule w w.length i) hmono g
      (fun r hr t hP => cyk_base_rule_spec g w hn hcnf i h1 h2 r hr t hP) t hP
  refine ⟨t', e1, e2, e3, ?_⟩
  intro A hA
  obtain ⟨c, _, hc⟩ := word_at w i h1 h2 hn
  rw [hc] at hA
  obtain ⟨r, hr, rfl, hrc⟩ := derives_one g A c hA
  exact e4 r hr c hrc hc

theorem cyk_base_spec (g : grammar_t) (w : List alpha_t) (hn : w.length < 2 ^ 32)
    (hcnf : CNF g) :
    ∃ t', cyk_base g w w.length (table_init (size_mul w.length w.length)) = some t' ∧
      FillInv g w 2 t' := by
  obtain ⟨t', e1, e2, _, e4⟩ :=
    loopM_spec (FillInv g w 1) (fun i t' => CompleteAt g w 1 i t')
      (fun i => loopM (cyk_base_rule w w.length i) g)
      (fun i a b hq hE => CompleteAt_mono g w 1 i a b hq hE) (upto 1 w.length)
      (fun i hi t hP => cyk_base_pos_spec g w hn hcnf i ((mem_upto _ _ _).mp hi).1
        ((mem_upto _ _ _).mp hi).2 t hP)
      _ (FillInv_init g w hn)
  refine ⟨t', e1, e2.1, e2.2.1, ?_⟩
  intro j i hv hj
  obtain ⟨h1, h2, h3, h4⟩ := hv
  have hj1 : j = 1 := by omega
  subst hj1
  exact e4 i ((mem_upto _ _ _).mpr ⟨h3, by omega⟩)

/-! ## The inductive case -/

theorem RuleDone_mono (g : grammar_t) (w : List alpha_t) (j i k : Nat) (r : grammar_entry_t)
    (a b : table_t) (h : RuleDone g w j i k r a) (e : Ext a b) : RuleDone g w j i k r b :=
  fun B C hr hB hC => e.2 _ _ (h B C hr hB hC)

theorem cyk_step_rule_spec (g : grammar_t) (w : List alpha_t) (hn : w.length < 2 ^ 32)
    (hcnf : CNF g) (j i k : Nat) (hv : ValidCell w.length j i) (hk1 : 1 ≤ k) (hk2 : k + 1 ≤ j)
    (r : grammar_entry_t) (hr : r ∈ g) (t : table_t) (hP : FillInv g w j t) :
    ∃ t', cyk_step_rule w.length j i k r t = some t' ∧ FillInv g w j t' ∧ Ext t t' ∧
      RuleDone g w j i k r t' := by
  have hM := SIZE_MOD_eq
  obtain ⟨hj1, hj2, hi1, hi2⟩ := hv
  have hvl : ValidCell w.length k i := ⟨hk1, by omega, hi1, by omega⟩
  have hvr : ValidCell w.length (j - k) (i + k) := ⟨by omega, by omega, by omega, by omega⟩
  have hll : TABLE_IDX w.length k i < t.length := by
    rw [hP.1]; exact TABLE_IDX_lt _ _ _ hn hvl
  have hrl : TABLE_IDX w.length (j - k) (i + k) < t.length := by
    rw [hP.1]; exact TABLE_IDX_lt _ _ _ hn hvr
  unfold cyk_step_rule
  rcases hcnf r hr with ⟨hl, hs⟩ | ⟨hl, hs⟩
  · refine ⟨t, by simp [hs], hP, Ext_refl t, ?_⟩
    intro B C hc
    rw [hc] at hl
    simp at hl
  · obtain ⟨B, C, hBC⟩ := List.length_eq_two.mp hl
    rw [hs, hBC, str_at_zero_cons, str_at_one_cons, size_sub_eq j k (by omega) (by omega),
      size_add_eq i k (by omega), getElem?_eq_some_cellAt t _ hll,
      getElem?_eq_some_cellAt t _ hrl]
    simp only [Bool.false_eq_true, if_false]
    by_cases hb : table_char_exists (cellAt t (TABLE_IDX w.length k i)) B = true
    · by_cases hc : table_char_exists (cellAt t (TABLE_IDX w.length (j - k) (i + k))) C = true
      · have dB := hP.2.1 k i hvl B ((table_char_exists_iff _ _).mp hb)
        have dC := hP.2.1 (j - k) (i + k) hvr C ((table_char_exists_iff _ _).mp hc)
        have hD : Derives g r.non_terminal (subword w i j) := by
          rw [subword_split w i j k hi1 (by omega)]
          refine Derives.binary _ B C _ _ ⟨r, hr, rfl, hBC⟩ ?_ ?_ dB dC
          · intro e
            have := subword_length w k i hvl
            rw [e] at this
            simp at this
            omega
          · intro e
            have := subword_length w (j - k) (i + k) hvr
            rw [e] at this
            simp at this
            omega
        obtain ⟨t', e1, e2, e3, e4⟩ :=
          push_spec g w j t j i r.non_terminal hn ⟨hj1, hj2, hi1, hi2⟩ hP hD
        refine ⟨t', ?_, e2, e3, fun _ _ _ _ _ => e4⟩
        simp [hb, hc, e1]
      · refine ⟨t, by simp [hb, hc], hP, Ext_refl t, ?_⟩
        intro B' C' hr' _ dC
        have q : C = C' := by
          rw [hBC] at hr'
          simp at hr'
          exact hr'.2
        subst q
        exact absurd ((table_char_exists_iff _ _).mpr
          (hP.2.2 (j - k) (i + k) hvr (by omega) C dC)) hc
    · refine ⟨t, by simp [hb], hP, Ext_refl t, ?_⟩
      intro B' C' hr' dB _
      have q : B = B' := by
        rw [hBC] at hr'
        simp at hr'
        exact hr'.1
      subst q
      exact absurd ((table_char_exists_iff _ _).mpr (hP.2.2 k i hvl (by omega) B dB)) hb

theorem cyk_step_split_spec (g : grammar_t) (w : List alpha_t) (hn : w.length < 2 ^ 32)
    (hcnf : CNF g) (j i k : Nat) (hv : ValidCell w.length j i) (hk1 : 1 ≤ k) (hk2 : k + 1 ≤ j)
    (t : table_t) (hP : FillInv g w j t) :
    ∃ t', loopM (cyk_step_rule w.length j i k) g t = some t' ∧ FillInv g w j t' ∧ Ext t t' ∧
      ∀ r ∈ g, RuleDone g w j i k r t' :=
  loopM_spec (FillInv g w j) (RuleDone g w j i k) (cyk_step_rule w.length j i k)
    (RuleDone_mono g w j i k) g
    (fun r hr t hP => cyk_step_rule_spec g w hn hcnf j i k hv hk1 hk2 r hr t hP) t hP

theorem cyk_step_cell_spec (g : grammar_t) (w : List alpha_t) (hn : w.length < 2 ^ 32)
    (hcnf : CNF g) (j i : Nat) (hv : ValidCell w.length j i) (hj : 2 ≤ j)
    (t : table_t) (hP : FillInv g w j t) :
    ∃ t', loopM (fun k => loopM (cyk_step_rule w.length j i k) g) (upto 1 (size_sub j 1)) t
        = some t' ∧ FillInv g w j t' ∧ Ext t t' ∧ CompleteAt g w j i t' := by
  have hM := SIZE_MOD_eq
  have hmono : ∀ (k : Nat) (a b : table_t), (∀ r ∈ g, RuleDone g w j i k r a) → Ext a b →
      (∀ r ∈ g, RuleDone g w j i k r b) :=
    fun k a b h e r hr => RuleDone_mono g w j i k r a b (h r hr) e
  have hj2 := hv.2.1
  rw [size_sub_eq j 1 (by omega) (by omega)]
  obtain ⟨t', e1, e2, e3, e4⟩ :=
    loopM_spec (FillInv g w j) _ (fun k => loopM (cyk_step_rule w.length j i k) g) hmono
      (upto 1 (j - 1))
      (fun k hk t hP => cyk_step_split_spec g w hn hcnf j i k hv ((mem_upto _ _ _).mp hk).1
        (by have := ((mem_upto _ _ _).mp hk).2; omega) t hP) t hP
  refine ⟨t', e1, e2, e3, ?_⟩
  intro A hA
  have hlen := subword_length w j i hv
  obtain ⟨B, C, u, v, ⟨r, hr, rfl, hrBC⟩, hu, hv', huv, dB, dC⟩ :=
    derives_split g A _ hA (by omega)
  have hul := List.length_pos.mpr hu
  have hvl := List.length_pos.mpr hv'
  have htot : u.length + v.length = j := by
    rw [← List.length_append, ← huv]; exact hlen
  have hsplit := subword_split w i j u.length hv.2.2.1 (by omega)
  have hvk : ValidCell w.length u.length i :=
    ⟨by omega, by omega, hv.2.2.1, by have := hv.2.2.2; omega⟩
  have hinj := List.append_inj (huv.symm.trans hsplit) (subword_length w u.length i hvk).symm
  have dB' : Derives g B (subword w i u.length) := by rw [← hinj.1]; exact dB
  have dC' : Derives g C (subword w (i + u.length) (j - u.length)) := by
    rw [← hinj.2]; exact dC
  exact e4 u.length ((mem_upto _ _ _).mpr ⟨by omega, by omega⟩) r hr B C hrBC dB' dC'

theorem cyk_step_span_spec (g : grammar_t) (w : List alpha_t) (hn : w.length < 2 ^ 32)
    (hcnf : CNF g) (j : Nat) (hj : 2 ≤ j) (hj2 : j ≤ w.length)
    (t : table_t) (hP : FillInv g w j t) :
    ∃ t', loopM (fun i => loopM (fun k => loopM (cyk_step_rule w.length j i k) g)
        (upto 1 (size_sub j 1))) (upto 1 (size_add (size_sub w.length j) 1)) t = some t' ∧
      FillInv g w (j + 1) t' := by
  have hM := SIZE_MOD_eq
  rw [size_sub_eq w.length j hj2 (by omega), size_add_eq _ _ (by omega)]
  obtain ⟨t', e1, e2, _, e4⟩ :=
    loopM_spec (FillInv g w j) (fun i t' => CompleteAt g w j i t')
      (fun i => loopM (fun k => loopM (cyk_step_rule w.length j i k) g) (upto 1 (size_sub j 1)))
      (fun i a b h e => CompleteAt_mono g w j i a b h e) (upto 1 (w.length - j + 1))
      (fun i hi t hP => cyk_step_cell_spec g w hn hcnf j i
        ⟨by omega, hj2, ((mem_upto _ _ _).mp hi).1,
          by have := ((mem_upto _ _ _).mp hi).2; omega⟩ hj t hP) t hP
  refine ⟨t', e1, e2.1, e2.2.1, ?_⟩
  intro j' i hv hj'
  by_cases e : j' = j
  · subst e
    exact e4 i ((mem_upto _ _ _).mpr ⟨hv.2.2.1, by have := hv.2.2.2; omega⟩)
  · exact e2.2.2 j' i hv (by omega)

theorem cyk_spans_spec (g : grammar_t) (w : List alpha_t) (hn : w.length < 2 ^ 32)
    (hcnf : CNF g) :
    ∀ (m j0 : Nat) (t : table_t), 2 ≤ j0 → j0 + m = w.length + 1 → FillInv g w j0 t →
      ∃ t', loopM (fun j => loopM (fun i => loopM (fun k =>
          loopM (cyk_step_rule w.length j i k) g) (upto 1 (size_sub j 1)))
          (upto 1 (size_add (size_sub w.length j) 1))) (List.range' j0 m) t = some t' ∧
        FillInv g w (w.length + 1) t' := by
  intro m
  induction m with
  | zero =>
    intro j0 t _ h2 hP
    have : j0 = w.length + 1 := by omega
    subst this
    exact ⟨t, rfl, hP⟩
  | succ m ih =>
    intro j0 t h1 h2 hP
    obtain ⟨t1, e1, hP1⟩ := cyk_step_span_spec g w hn hcnf j0 h1 (by omega) t hP
    obtain ⟨t2, e2, hP2⟩ := ih (j0 + 1) t1 (by omega) (by omega) hP1
    refine ⟨t2, ?_, hP2⟩
    rw [List.range'_succ, loopM_cons, e1, Option.some_bind]
    exact e2

theorem fits_lt (n : Nat) (h : 8 * (n * n) < 2 ^ 64) : n < 2 ^ 32 := by
  by_contra hge
  have h1 : 4294967296 ≤ n := by omega
  have h2 : 4294967296 * 4294967296 ≤ n * n := Nat.mul_le_mul h1 h1
  omega

theorem cyk_alloc_fits (n : Nat) (h : 8 * (n * n) < 2 ^ 64) :
    cyk_alloc (size_mul n n) = some (table_init (size_mul n n)) := by
  have hM := SIZE_MOD_eq
  have e1 : size_mul n n = n * n := size_mul_eq _ _ (by omega)
  have e2 : size_mul PTR_SIZE (n * n) = 8 * (n * n) := size_mul_eq _ _ (by
    show 8 * (n * n) < SIZE_MOD
    omega)
  have e3 : table_slots (n * n) = n * n := by
    unfold table_slots
    rw [e2]
    show 8 * (n * n) / 8 = n * n
    omega
  unfold cyk_alloc
  rw [e1, e3, if_pos (le_refl _)]

theorem cyk_alloc_eq (a : Nat) (t : table_t) (h : cyk_alloc a = some t) : t = table_init a := by
  unfold cyk_alloc at h
  split at h
  · exact (Option.some.inj h).symm
  · exact absurd h (by simp)

theorem cyk_after_base_spec (g : grammar_t) (w : List alpha_t) (hcnf : CNF g)
    (hfit : 8 * (w.length * w.length) < 2 ^ 64) :
    ∃ t, cyk_after_base g w = some t ∧ FillInv g w 2 t := by
  obtain ⟨t1, e1, hP1⟩ := cyk_base_spec g w (fits_lt _ hfit) hcnf
  refine ⟨t1, ?_, hP1⟩
  unfold cyk_after_base
  simp only [cyk_alloc_fits _ hfit, Option.some_bind]
  exact e1

/-- For a CNF grammar and a non-empty word whose table allocation fits
`size_t`, the fill succeeds and leaves a table in which every valid cell is
sound and complete. -/
theorem cyk_fill_spec (g : grammar_t) (w : List alpha_t) (hcnf : CNF g) (hw : w ≠ [])
    (hfit : 8 * (w.length * w.length) < 2 ^ 64) :
    ∃ t, cyk_fill g w = some t ∧ FillInv g w (w.length + 1) t := by
  have hpos := List.length_pos.mpr hw
  have hn := fits_lt _ hfit
  obtain ⟨t1, e1, hP1⟩ := cyk_after_base_spec g w hcnf hfit
  obtain ⟨t2, e2, hP2⟩ :=
    cyk_spans_spec g w hn hcnf (w.length + 1 - 2) 2 t1 (le_refl 2) (by omega) hP1
  refine ⟨t2, ?_, hP2⟩
  unfold cyk_fill cyk_inductive
  simp only [e1, Option.some_bind]
  exact e2

/-! ## States of the table during the fill -/

theorem cyk_base_rule_shape (w : List alpha_t) (n i : Nat) (r : grammar_entry_t)
    (t t' : table_t) (h : cyk_base_rule w n i r t = some t') :
    t' = t ∨ table_push_back t (TABLE_IDX n 1 i) r.non_terminal = some t' := by
  unfold cyk_base_rule at h
  split at h
  · left; exact (Option.some.inj h).symm
  · split at h
    · split at h
      · left; exact (Option.some.inj h).symm
      · right; exact h
    · exact absurd h (by simp)

theorem cyk_step_rule_shape (n j i k : Nat) (r : grammar_entry_t)
    (t t' : table_t) (h : cyk_step_rule n j i k r t = some t') :
    t' = t ∨ table_push_back t (TABLE_IDX n j i) r.non_terminal = some t' := by
  unfold cyk_step_rule at h
  split at h
  · left; exact (Option.some.inj h).symm
  · split at h
    · split at h
      · exact absurd h (by simp)
      · split at h
        · split at h
          · exact absurd h (by simp)
          · split at h
            · right; exact h
            · left; exact (Option.some.inj h).symm
        · left; exact (Option.some.inj h).symm
    · exact absurd h (by simp)

theorem table_push_back_eq (t t' : table_t) (idx : Nat) (a : alpha_t)
    (h : table_push_back t idx a = some t') :
    idx < t.length ∧ t' = t.set idx (cellAt t idx ++ [a]) := by
  by_cases hlt : idx < t.length
  · rw [table_push_back_some t idx a hlt] at h
    exact ⟨hlt, (Option.some.inj h).symm⟩
  · rw [table_push_back_none t idx a (by omega)] at h
    exact absurd h (by simp)

theorem table_push_back_length (t t' : table_t) (idx : Nat) (a : alpha_t)
    (h : table_push_back t idx a = some t') : t'.length = t.length := by
  rw [(table_push_back_eq t t' idx a h).2]
  simp

theorem HeadsOnly_push (g : grammar_t) (t t' : table_t) (idx : Nat) (r : grammar_entry_t)
    (hr : r ∈ g) (hH : HeadsOnly g t)
    (h : table_push_back t idx r.non_terminal = some t') : HeadsOnly g t' := by
  obtain ⟨hlt, rfl⟩ := table_push_back_eq t t' idx _ h
  intro c hc a ha
  rcases List.mem_or_eq_of_mem_set hc with hc | rfl
  · exact hH c hc a ha
  · rcases List.mem_append.mp ha with ha | ha
    · refine hH (cellAt t idx) ?_ a ha
      have e := getElem?_eq_some_cellAt t idx hlt
      exact List.getElem?_mem e
    · rw [List.mem_singleton.mp ha]
      exact List.mem_map_of_mem _ hr

theorem FillReach_length (g : grammar_t) (w : List alpha_t) (t : table_t)
    (h : FillReach g w t) : t.length = size_mul w.length w.length := by
  induction h with
  | init t h0 =>
    rw [cyk_alloc_eq _ t h0]
    simp [table_init]
  | base i r t t' _ _ he ih =>
    rcases cyk_base_rule_shape _ _ _ _ _ _ he with rfl | hp
    · exact ih
    · rw [table_push_back_length _ _ _ _ hp]; exact ih
  | step j i k r t t' _ _ he ih =>
    rcases cyk_step_rule_shape _ _ _ _ _ _ _ he with rfl | hp
    · exact ih
    · rw [table_push_back_length _ _ _ _ hp]; exact ih

theorem FillReach_heads (g : grammar_t) (w : List alpha_t) (t : table_t)
    (h : FillReach g w t) : HeadsOnly g t := by
  induction h with
  | init t h0 =>
    intro c hc a ha
    rw [cyk_alloc_eq _ t h0] at hc
    rw [List.eq_of_mem_replicate hc] at ha
    simp at ha
  | base i r t t' hr _ he ih =>
    rcases cyk_base_rule_shape _ _ _ _ _ _ he with rfl | hp
    · exact ih
    · exact HeadsOnly_push g _ _ _ r hr ih hp
  | step j i k r t t' hr _ he ih =>
    rcases cyk_step_rule_shape _ _ _ _ _ _ _ he with rfl | hp
    · exact ih
    · exact HeadsOnly_push g _ _ _ r hr ih hp

theorem loopM_preserves {α : Type} (P : table_t → Prop) (body : α → table_t → Option table_t) :
    ∀ (xs : List α), (∀ x ∈ xs, ∀ t t', P t → body x t = some t' → P t') →
      ∀ t t', P t → loopM body xs t = some t' → P t' := by
  intro xs
  induction xs with
  | nil =>
    intro _ t t' hP h
    rw [← Option.some.inj h]; exact hP
  | cons y ys ih =>
    intro hb t t' hP h
    rw [loopM_cons] at h
    cases e : body y t with
    | none => rw [e] at h; exact absurd h (by simp)
    | some t1 =>
      rw [e, Option.some_bind] at h
      exact ih (fun x hx => hb x (List.mem_cons_of_mem y hx)) t1 t'
        (hb y (List.mem_cons_self y ys) t t1 hP e) h

theorem cyk_after_base_reach (g : grammar_t) (w : List alpha_t) (t : table_t)
    (h : cyk_after_base g w = some t) : FillReach g w t := by
  unfold cyk_after_base at h
  simp only at h
  cases e : cyk_alloc (size_mul w.length w.length) with
  | none => rw [e] at h; exact absurd h (by simp)
  | some t0 =>
    rw [e, Option.some_bind] at h
    unfold cyk_base at h
    refine loopM_preserves (FillReach g w) _ _ (fun i _ a b hP hb => ?_) _ _
      (FillReach.init t0 e) h
    exact loopM_preserves (FillReach g w) _ g
      (fun r hr a b hP hb => FillReach.base i r a b hr hP hb) a b hP hb

theorem cyk_fill_reach (g : grammar_t) (w : List alpha_t) (t : table_t)
    (h : cyk_fill g w = some t) : FillReach g w t := by
  unfold cyk_fill at h
  cases e : cyk_after_base g w with
  | none => rw [e] at h; exact absurd h (by simp)
  | some t1 =>
    rw [e, Option.some_bind] at h
    have h1 : FillReach g w t1 := cyk_after_base_reach g w t1 e
    unfold cyk_inductive at h
    refine loopM_preserves (FillReach g w) _ _ (fun j _ a b hP hb => ?_) _ _ h1 h
    refine loopM_preserves (FillReach g w) _ _ (fun i _ a b hP hb => ?_) a b hP hb
    refine loopM_preserves (FillReach g w) _ _ (fun k _ a b hP hb => ?_) a b hP hb
    exact loopM_preserves (FillReach g w) _ g
      (fun r hr a b hP hb => FillReach.step j i k r a b hr hP hb) a b hP hb

theorem distinct_le_of_heads (g : grammar_t) (t : table_t) (h : HeadsOnly g t) :
    ∀ c ∈ t, c.dedup.length ≤ (g.map grammar_entry_t.non_terminal).dedup.length := by
  intro c hc
  have hsub : c.dedup ⊆ (g.map grammar_entry_t.non_terminal).dedup := by
    intro a ha
    exact List.mem_dedup.mpr (h c hc a (List.mem_dedup.mp ha))
  exact ((List.nodup_dedup c).subperm hsub).length_le

/-! ## The result of `cyk` -/

theorem subword_full (w : List alpha_t) : subword w 1 w.length = w := by
  simp [subword]

theorem validCell_top (n : Nat) (h : 1 ≤ n) : ValidCell n n 1 :=
  ⟨h, le_refl n, le_refl 1, by omega⟩

theorem cyk_of_fill (g : grammar_t) (w : List alpha_t) (t : table_t) (hw : w ≠ [])
    (hn : w.length < 2 ^ 32) (h : cyk_fill g w = some t) :
    cyk g w = some (cyk_final (cellAt t (TABLE_IDX w.length w.length 1))) := by
  have hpos := List.length_pos.mpr hw
  have hlen := FillReach_length g w t (cyk_fill_reach g w t h)
  rw [size_mul_eq _ _ (sq_lt_SIZE_MOD _ hn)] at hlen
  have hlt : TABLE_IDX w.length w.length 1 < t.length := by
    rw [hlen]; exact TABLE_IDX_lt _ _ _ hn (validCell_top _ hpos)
  unfold cyk
  rw [h, Option.some_bind, getElem?_eq_some_cellAt t _ hlt]
  rfl

theorem cyk_decides (g : grammar_t) (w : List alpha_t) (hcnf : CNF g) (hw : w ≠ [])
    (hfit : 8 * (w.length * w.length) < 2 ^ 64) :
    ∃ b, cyk g w = some b ∧ (b = true ↔ Derives g 'S' w) := by
  have hpos := List.length_pos.mpr hw
  have hn := fits_lt _ hfit
  obtain ⟨t, ht, _, hS, hC⟩ := cyk_fill_spec g w hcnf hw hfit
  refine ⟨_, cyk_of_fill g w t hw hn ht, ?_⟩
  rw [cyk_final_iff]
  have hv := validCell_top w.length hpos
  constructor
  · intro h
    have := hS _ _ hv 'S' h
    rwa [subword_full] at this
  · intro h
    refine hC _ _ hv (by omega) 'S' ?_
    rwa [subword_full]

theorem derives_symbols (g : grammar_t) (A : alpha_t) (s : List alpha_t)
    (h : Derives g A s) : ∀ c ∈ s, ∃ r ∈ g, r.pTerminals = [c] := by
  induction h with
  | unit A c hr =>
    intro c' hc'
    obtain ⟨r, hr, _, hrc⟩ := hr
    rw [List.mem_singleton.mp hc']
    exact ⟨r, hr, hrc⟩
  | binary A B C u v _ _ _ _ _ ihB ihC =>
    intro c hc
    rcases List.mem_append.mp hc with h | h
    · exact ihB c h
    · exact ihC c h

/-! ## Reads and writes of the inductive case -/

theorem TABLE_IDX_ne_of_span_lt (n j i j' i' : Nat) (hn : n < 2 ^ 32) (hv : ValidCell n j i)
    (hv' : ValidCell n j' i') (hlt : j < j') : TABLE_IDX n j i ≠ TABLE_IDX n j' i' := by
  intro e
  have := (TABLE_IDX_inj n j i j' i' hn hv hv' e).1
  omega

theorem set_cellAt_self (t : table_t) (idx : Nat) (h : idx < t.length) :
    t.set idx (cellAt t idx) = t := by
  apply List.ext_getElem?
  intro k
  by_cases e : idx = k
  · subst e
    simp [h, getElem?_eq_some_cellAt t idx h]
  · rw [List.getElem?_set_ne e]

theorem unit_heads_cons_pos (r : grammar_entry_t) (rs : grammar_t) (c : alpha_t)
    (h : r.pTerminals = [c]) : unit_heads (r :: rs) c = r.non_terminal :: unit_heads rs c := by
  simp [unit_heads, h]

theorem unit_heads_cons_neg (r : grammar_entry_t) (rs : grammar_t) (c : alpha_t)
    (h : r.pTerminals ≠ [c]) : unit_heads (r :: rs) c = unit_heads rs c := by
  simp [unit_heads, h]

theorem cyk_base_rule_exact (w : List alpha_t) (n i : Nat) (c : alpha_t) (r : grammar_entry_t)
    (hr : r.single_char = (r.pTerminals.length == 1))
    (hc : str_at w (size_sub i 1) = some c) (t : table_t) :
    cyk_base_rule w n i r t =
      if r.pTerminals = [c] then table_push_back t (TABLE_IDX n 1 i) r.non_terminal
      else some t := by
  unfold cyk_base_rule
  by_cases hl : r.pTerminals.length = 1
  · obtain ⟨c', hc'⟩ := List.length_eq_one.mp hl
    have hs : r.single_char = true := by rw [hr]; simp [hl]
    rw [hs, hc', str_at_zero_cons, hc]
    by_cases e : c' = c
    · simp [e]
    · simp [e]
  · have hs : r.single_char = false := by rw [hr]; simp [hl]
    have hne : r.pTerminals ≠ [c] := fun e => hl (by rw [e]; rfl)
    simp [hs, hne]

theorem cyk_base_rules_exact (w : List alpha_t) (n i : Nat) (c : alpha_t)
    (hc : str_at w (size_sub i 1) = some c) :
    ∀ (rs : grammar_t), EntriesBuilt rs → ∀ (t : table_t), TABLE_IDX n 1 i < t.length →
      loopM (cyk_base_rule w n i) rs t =
        some (t.set (TABLE_IDX n 1 i) (cellAt t (TABLE_IDX n 1 i) ++ unit_heads rs c)) := by
  intro rs
  induction rs with
  | nil =>
    intro _ t hlt
    simp [loopM, unit_heads, set_cellAt_self t _ hlt]
  | cons r rs ih =>
    intro hb t hlt
    have hb' : EntriesBuilt rs := fun x hx => hb x (List.mem_cons_of_mem r hx)
    rw [loopM_cons, cyk_base_rule_exact w n i c r (hb r (List.mem_cons_self r rs)) hc t]
    by_cases e : r.pTerminals = [c]
    · rw [if_pos e, table_push_back_some t _ _ hlt, Option.some_bind,
        ih hb' _ (by simpa using hlt), cellAt_set_self t _ _ hlt, List.set_set,
        unit_heads_cons_pos r rs c e]
      simp
    · rw [if_neg e, Option.some_bind, ih hb' t hlt, unit_heads_cons_neg r rs c e]

theorem word_at_get (w : List alpha_t) (i : Nat) (h1 : 1 ≤ i) (h2 : i ≤ w.length)
    (hn : w.length < 2 ^ 32) :
    ∃ c, w[i - 1]? = some c ∧ str_at w (size_sub i 1) = some c := by
  obtain ⟨c, h, hs⟩ := word_at w i h1 h2 hn
  exact ⟨c, (subword_one w i c).mp hs, h⟩

theorem cyk_base_positions_exact (g : grammar_t) (w : List alpha_t) (hn : w.length < 2 ^ 32)
    (hb : EntriesBuilt g) :
    ∀ (ps : List Nat), (∀ i ∈ ps, 1 ≤ i ∧ i ≤ w.length) → ps.Nodup →
      ∀ (t : table_t), t.length = w.length * w.length →
      (∀ i ∈ ps, cellAt t (TABLE_IDX w.length 1 i) = []) →
      ∃ t', loopM (fun i => loopM (cyk_base_rule w w.length i) g) ps t = some t' ∧
        t'.length = w.length * w.length ∧
        (∀ i ∈ ps, ∀ c, w[i - 1]? = some c →
          cellAt t' (TABLE_IDX w.length 1 i) = unit_heads g c) ∧
        (∀ idx, (∀ i ∈ ps, idx ≠ TABLE_IDX w.length 1 i) → cellAt t' idx = cellAt t idx) := by
  intro ps
  induction ps with
  | nil =>
    intro _ _ t hlen _
    exact ⟨t, rfl, hlen, by simp, fun _ _ => rfl⟩
  | cons i ps ih =>
    intro hr hnd t hlen hemp
    obtain ⟨hi1, hi2⟩ := hr i (List.mem_cons_self i ps)
    have hvi : ValidCell w.length 1 i := ⟨le_refl 1, by omega, hi1, by omega⟩
    have hlt : TABLE_IDX w.length 1 i < t.length := by
      rw [hlen]; exact TABLE_IDX_lt _ _ _ hn hvi
    obtain ⟨c, hc, hs⟩ := word_at_get w i hi1 hi2 hn
    have hne : ∀ i' ∈ ps, TABLE_IDX w.length 1 i ≠ TABLE_IDX w.length 1 i' := by
      intro i' hi' e
      obtain ⟨a1, a2⟩ := hr i' (List.mem_cons_of_mem i hi')
      have hvi' : ValidCell w.length 1 i' := ⟨le_refl 1, by omega, a1, by omega⟩
      have := (TABLE_IDX_inj _ _ _ _ _ hn hvi hvi' e).2
      subst this
      exact (List.nodup_cons.mp hnd).1 hi'
    have e1 := cyk_base_rules_exact w w.length i c hs g hb t hlt
    rw [hemp i (List.mem_cons_self i ps), List.nil_append] at e1
    obtain ⟨t', e2, hlen', hcells, hother⟩ :=
      ih (fun x hx => hr x (List.mem_cons_of_mem i hx)) (List.nodup_cons.mp hnd).2
        (t.set (TABLE_IDX w.length 1 i) (unit_heads g c)) (by simpa using hlen)
        (fun i' hi' => by
          rw [cellAt_set_other t _ _ _ (hne i' hi')]
          exact hemp i' (List.mem_cons_of_mem i hi'))
    refine ⟨t', ?_, hlen', ?_, ?_⟩
    · rw [loopM_cons, e1, Option.some_bind]
      exact e2
    · intro x hx c' hc'
      rcases List.mem_cons.mp hx with rfl | hx
      · rw [hother _ (fun i' hi' => hne i' hi'), cellAt_set_self t _ _ hlt]
        rw [hc] at hc'
        rw [Option.some.inj hc']
      · exact hcells x hx c' hc'
    · intro idx hidx
      rw [hother idx (fun i' hi' => hidx i' (List.mem_cons_of_mem i hi'))]
      exact cellAt_set_other t _ _ _ (fun e => hidx i (List.mem_cons_self i ps) e.symm)

/-! ## The language of the reference grammar -/

theorem grammar_init_unit (A c : alpha_t) (h : HasUnitRule grammar_init A c) :
    (A = 'B' ∧ c = 'c') ∨ (A = 'C' ∧ c = 'a') ∨ (A = 'D' ∧ c = 'b') ∨ (A = 'E' ∧ c = 'c') := by
  obtain ⟨r, hr, h1, h2⟩ := h
  simp only [grammar_init, GRAMMAR_ENTRY, List.mem_cons, List.mem_singleton,
    List.not_mem_nil, or_false] at hr
  rcases hr with rfl | rfl | rfl | rfl | rfl | rfl | rfl | rfl | rfl <;>
    simp at h1 h2 <;> simp [← h1, ← h2]

theorem grammar_init_binary (A B C : alpha_t) (h : HasBinaryRule grammar_init A B C) :
    (A = 'S' ∧ B = 'A' ∧ C = 'B') ∨ (A = 'A' ∧ B = 'C' ∧ C = 'D') ∨
    (A = 'A' ∧ B = 'C' ∧ C = 'F') ∨ (A = 'B' ∧ B = 'E' ∧ C = 'B') ∨
    (A = 'F' ∧ B = 'A' ∧ C = 'D') := by
  obtain ⟨r, hr, h1, h2⟩ := h
  simp only [grammar_init, GRAMMAR_ENTRY, List.mem_cons, List.mem_singleton,
    List.not_mem_nil, or_false] at hr
  rcases hr with rfl | rfl | rfl | rfl | rfl | rfl | rfl | rfl | rfl <;>
    simp at h1 h2 <;> simp [← h1, ← h2.1, ← h2.2]

theorem refLang_S (s : List alpha_t) (h : RefLang 'S' s) :
    ∃ n m, 1 ≤ n ∧ 1 ≤ m ∧ s = anbncm n m := by
  simpa [RefLang] using h

theorem refLang_A (s : List alpha_t) (h : RefLang 'A' s) :
    ∃ n, 1 ≤ n ∧ s = List.replicate n 'a' ++ List.replicate n 'b' := by
  simpa [RefLang] using h

theorem refLang_F (s : List alpha_t) (h : RefLang 'F' s) :
    ∃ n, 1 ≤ n ∧ s = List.replicate n 'a' ++ List.replicate (n + 1) 'b' := by
  simpa [RefLang] using h

theorem refLang_B (s : List alpha_t) (h : RefLang 'B' s) :
    ∃ m, 1 ≤ m ∧ s = List.replicate m 'c' := by
  simpa [RefLang] using h

theorem refLang_C (s : List alpha_t) (h : RefLang 'C' s) : s = ['a'] := by
  simpa [RefLang] using h

theorem refLang_D (s : List alpha_t) (h : RefLang 'D' s) : s = ['b'] := by
  simpa [RefLang] using h

theorem refLang_E (s : List alpha_t) (h : RefLang 'E' s) : s = ['c'] := by
  simpa [RefLang] using h

theorem derives_refLang (X : alpha_t) (s : List alpha_t) (h : Derives grammar_init X s) :
    RefLang X s := by
  induction h with
  | unit A c hr =>
    rcases grammar_init_unit A c hr with ⟨rfl, rfl⟩ | ⟨rfl, rfl⟩ | ⟨rfl, rfl⟩ | ⟨rfl, rfl⟩
    · right; right; right; left
      exact ⟨rfl, 1, le_refl 1, rfl⟩
    · right; right; right; right; left
      exact ⟨rfl, rfl⟩
    · right; right; right; right; right; left
      exact ⟨rfl, rfl⟩
    · right; right; right; right; right; right
      exact ⟨rfl, rfl⟩
  | binary A B C u v hr _ _ _ _ ihB ihC =>
    rcases grammar_init_binary A B C hr with
      ⟨rfl, rfl, rfl⟩ | ⟨rfl, rfl, rfl⟩ | ⟨rfl, rfl, rfl⟩ | ⟨rfl, rfl, rfl⟩ | ⟨rfl, rfl, rfl⟩
    · obtain ⟨n, hn, rfl⟩ := refLang_A u ihB
      obtain ⟨m, hm, rfl⟩ := refLang_B v ihC
      left
      exact ⟨rfl, n, m, hn, hm, rfl⟩
    · have hu := refLang_C u ihB
      have hv := refLang_D v ihC
      subst hu hv
      right; left
      exact ⟨rfl, 1, le_refl 1, rfl⟩
    · have hu := refLang_C u ihB
      obtain ⟨n, hn, rfl⟩ := refLang_F v ihC
      subst hu
      right; left
      refine ⟨rfl, n + 1, by omega, ?_⟩
      simp [List.replicate_succ]
    · have hu := refLang_E u ihB
      obtain ⟨m, hm, rfl⟩ := refLang_B v ihC
      subst hu
      right; right; right; left
      refine ⟨rfl, m + 1, by omega, ?_⟩
      simp [List.replicate_succ]
    · obtain ⟨n, hn, rfl⟩ := refLang_A u ihB
      have hv := refLang_D v ihC
      subst hv
      right; right; left
      refine ⟨rfl, n, hn, ?_⟩
      rw [List.replicate_succ', List.append_assoc]

theorem derives_B (m : Nat) : Derives grammar_init 'B' (List.replicate (m + 1) 'c') := by
  induction m with
  | zero => exact Derives.unit 'B' 'c' (by decide)
  | succ m ih =>
    have := Derives.binary 'B' 'E' 'B' ['c'] (List.replicate (m + 1) 'c') (by decide)
      (by simp) (by simp [List.replicate_succ]) (Derives.unit 'E' 'c' (by decide)) ih
    rw [List.replicate_succ]
    exact this

theorem derives_A (n : Nat) :
    Derives grammar_init 'A' (List.replicate (n + 1) 'a' ++ List.replicate (n + 1) 'b') := by
  have dC : Derives grammar_init 'C' ['a'] := Derives.unit 'C' 'a' (by decide)
  have dD : Derives grammar_init 'D' ['b'] := Derives.unit 'D' 'b' (by decide)
  induction n with
  | zero => exact Derives.binary 'A' 'C' 'D' ['a'] ['b'] (by decide) (by simp) (by simp) dC dD
  | succ n ih =>
    have dF := Derives.binary 'F' 'A' 'D' _ ['b'] (by decide)
      (by simp [List.replicate_succ]) (by simp) ih dD
    have dA := Derives.binary 'A' 'C' 'F' ['a'] _ (by decide) (by simp) (by simp) dC dF
    have e : List.replicate (n + 1 + 1) 'a' ++ List.replicate (n + 1 + 1) 'b' =
        ['a'] ++ (List.replicate (n + 1) 'a' ++ List.replicate (n + 1) 'b' ++ ['b']) := by
      rw [List.replicate_succ 'a' (n + 1), List.replicate_succ' (n + 1) 'b']
      simp
    rw [e]
    exact dA

theorem derives_S (n m : Nat) (hn : 1 ≤ n) (hm : 1 ≤ m) :
    Derives grammar_init 'S' (anbncm n m) := by
  obtain ⟨n', rfl⟩ : ∃ k, n = k + 1 := ⟨n - 1, by omega⟩
  obtain ⟨m', rfl⟩ : ∃ k, m = k + 1 := ⟨m - 1, by omega⟩
  exact Derives.binary 'S' 'A' 'B' _ _ (by decide) (by simp [List.replicate_succ])
    (by simp [List.replicate_succ]) (derives_A n') (derives_B m')

/-! ## The read loop of `main` -/

theorem take_set_succ {α : Type} (x : α) :
    ∀ (l : List α) (k : Nat), k < l.length → (l.set k x).take (k + 1) = l.take k ++ [x] := by
  intro l
  induction l with
  | nil => intro k h; simp at h
  | cons y ys ih =>
    intro k h
    cases k with
    | zero => simp
    | succ k =>
      have h' : k < ys.length := by simpa using h
      simp [List.set, List.take, ih k h']

theorem realloc_length (p : buffer_t) (size : Nat) : (realloc p size).length = size := by
  unfold realloc
  simp
  omega

theorem realloc_take (p : buffer_t) (size k : Nat) (h1 : k ≤ p.length) (h2 : k ≤ size) :
    (realloc p size).take k = p.take k := by
  unfold realloc
  rw [List.take_append_of_le_length (by simp; omega), List.take_take]
  congr 1
  omega

theorem buf_write_some (p : buffer_t) (k : Nat) (c : alpha_t) (h : k < p.length) :
    buf_write p k c = some (p.set k (some c)) := by
  simp [buf_write, h]

theorem main_read_body_spec (c : alpha_t) (s : read_state) (hI : ReadInv s)
    (hb : s.word_len + 1 < 2 ^ 63) :
    ∃ s', main_read_body c s = some s' ∧ ReadInv s' ∧ s'.word_len = s.word_len + 1 ∧
      s'.pWord.take s'.word_len = s.pWord.take s.word_len ++ [some c] := by
  have hM := SIZE_MOD_eq
  obtain ⟨h1, h2⟩ := hI
  unfold main_read_body
  rw [size_add_eq s.word_len 2 (by omega)]
  by_cases hg : s.word_len + 2 > s.arr_len
  · have hmul : size_mul s.arr_len 2 = s.arr_len * 2 := size_mul_eq _ _ (by omega)
    simp only [if_pos hg, hmul]
    have hlen := realloc_length s.pWord (s.arr_len * 2)
    rw [buf_write_some _ _ c (by omega), size_add_eq _ _ (by omega)]
    refine ⟨_, rfl, ⟨?_, ?_⟩, rfl, ?_⟩
    · show s.word_len + 1 + 1 ≤ s.arr_len * 2
      omega
    · show ((realloc s.pWord (s.arr_len * 2)).set s.word_len (some c)).length = s.arr_len * 2
      simp [hlen]
    · show ((realloc s.pWord (s.arr_len * 2)).set s.word_len (some c)).take (s.word_len + 1) = _
      rw [take_set_succ _ _ _ (by omega), realloc_take _ _ _ (by omega) (by omega)]
  · simp only [if_neg hg]
    rw [buf_write_some _ _ c (by omega), size_add_eq _ _ (by omega)]
    refine ⟨_, rfl, ⟨?_, ?_⟩, rfl, ?_⟩
    · show s.word_len + 1 + 1 ≤ s.arr_len
      omega
    · show (s.pWord.set s.word_len (some c)).length = s.arr_len
      simp [h2]
    · show (s.pWord.set s.word_len (some c)).take (s.word_len + 1) = _
      rw [take_set_succ _ _ _ (by omega)]

theorem main_read_loop_spec :
    ∀ (rest : List alpha_t) (s : read_state), ReadInv s → s.word_len + rest.length < 2 ^ 63 →
      ∃ s', main_read_loop rest s = some s' ∧ ReadInv s' ∧
        s'.word_len = s.word_len + (rest.takeWhile (fun c => !is_line_end c)).length ∧
        s'.pWord.take s'.word_len =
          s.pWord.take s.word_len ++ (rest.takeWhile (fun c => !is_line_end c)).map some := by
  intro rest
  induction rest with
  | nil =>
    intro s hI _
    exact ⟨s, rfl, hI, by simp, by simp⟩
  | cons c rest ih =>
    intro s hI hb
    have hb' : s.word_len + rest.length + 1 < 2 ^ 63 := by simpa [Nat.add_assoc] using hb
    unfold main_read_loop
    by_cases he : is_line_end c = true
    · exact ⟨s, by simp [he], hI, by simp [he], by simp [he]⟩
    · obtain ⟨s1, e1, hI1, hw1, hp1⟩ := main_read_body_spec c s hI (by omega)
      obtain ⟨s2, e2, hI2, hw2, hp2⟩ := ih s1 hI1 (by omega)
      refine ⟨s2, by simp [he, e1, e2], hI2, ?_, ?_⟩
      · simp [he, hw2, hw1]
        omega
      · simp [he, hp2, hp1]

theorem main_read_loop_append :
    ∀ (pre rest : List alpha_t) (s : read_state), (∀ c ∈ pre, is_line_end c = false) →
      main_read_loop (pre ++ rest) s = (main_read_loop pre s).bind (main_read_loop rest) := by
  intro pre
  induction pre with
  | nil => intro rest s _; rfl
  | cons c pre ih =>
    intro rest s h
    have hc : is_line_end c = false := h c (List.mem_cons_self c pre)
    rw [List.cons_append]
    simp only [main_read_loop, hc, Bool.false_eq_true, if_false]
    cases main_read_body c s with
    | none => rfl
    | some s1 =>
      simp only [Option.some_bind]
      exact ih rest s1 (fun x hx => h x (List.mem_cons_of_mem c hx))

theorem c_string_spec (tl : buffer_t) :
    ∀ (l : List alpha_t),
      c_string (l.map some ++ some NUL :: tl) = some (l.takeWhile (fun c => c != NUL)) := by
  intro l
  induction l with
  | nil => simp [c_string]
  | cons c l ih =>
    by_cases h : c = NUL
    · simp [c_string, h]
    · simp [c_string, h, ih]

theorem main_word_spec (input : List alpha_t) (h : input.length < 2 ^ 63) :
    main_word input =
      some ((input.takeWhile (fun c => !is_line_end c)).takeWhile (fun c => c != NUL)) := by
  obtain ⟨s, e, ⟨hI1, hI2⟩, hw, hp⟩ :=
    main_read_loop_spec input read_init (by decide) (by simpa [read_init] using h)
  unfold main_word
  rw [e, Option.some_bind, buf_write_some _ _ _ (by omega), Option.some_bind]
  have hb : s.pWord.set s.word_len (some NUL) =
      (input.takeWhile (fun c => !is_line_end c)).map some ++
        some NUL :: (s.pWord.set s.word_len (some NUL)).drop (s.word_len + 1) := by
    have h1 := take_set_succ (some NUL) s.pWord s.word_len (by omega)
    rw [hp] at h1
    have h2 := List.take_append_drop (s.word_len + 1) (s.pWord.set s.word_len (some NUL))
    rw [h1] at h2
    simpa [read_init] using h2.symm
  rw [hb, c_string_spec]

theorem takeWhile_takeWhile {α : Type} (p q : α → Bool) :
    ∀ (l : List α), (l.takeWhile p).takeWhile q = l.takeWhile (fun c => p c && q c) := by
  intro l
  induction l with
  | nil => rfl
  | cons x xs ih =>
    by_cases hp : p x = true
    · by_cases hq : q x = true
      · simp [List.takeWhile_cons, hp, hq, ih]
      · simp [List.takeWhile_cons, hp, hq]
    · simp [List.takeWhile_cons, hp]

theorem takeWhile_of_all {α : Type} (q : α → Bool) :
    ∀ (l : List α), (∀ x ∈ l, q x = true) → l.takeWhile q = l := by
  intro l
  induction l with
  | nil => intro _; rfl
  | cons x xs ih =>
    intro h
    rw [List.takeWhile_cons, if_pos (h x (List.mem_cons_self x xs)),
      ih (fun y hy => h y (List.mem_cons_of_mem x hy))]

/-! ## Words whose table allocation wraps -/

theorem cyk_alloc_wrap : cyk_alloc (size_mul 2147483648 2147483648) = none := by
  decide

theorem cyk_after_base_wrap (g : grammar_t) (w : List alpha_t) (h : w.length = 2147483648) :
    cyk_after_base g w = none := by
  unfold cyk_after_base
  simp only [h, cyk_alloc_wrap, Option.none_bind]

theorem cyk_fill_wrap (g : grammar_t) (w : List alpha_t) (h : w.length = 2147483648) :
    cyk_fill g w = none := by
  unfold cyk_fill
  rw [cyk_after_base_wrap g w h, Option.none_bind]

theorem cyk_wrap (g : grammar_t) (w : List alpha_t) (h : w.length = 2147483648) :
    cyk g w = none := by
  unfold cyk
  rw [cyk_fill_wrap g w h, Option.none_bind]

theorem replicate_ne_nil (n : Nat) (a : alpha_t) (h : n ≠ 0) : List.replicate n a ≠ [] := by
  intro e
  have := congrArg List.length e
  rw [List.length_replicate] at this
  exact h this

theorem derives_replicate_a (n : Nat) :
    Derives [GRAMMAR_ENTRY 'S' "SS", GRAMMAR_ENTRY 'S' "a"] 'S' (List.replicate (n + 1) 'a') := by
  have d1 : Derives [GRAMMAR_ENTRY 'S' "SS", GRAMMAR_ENTRY 'S' "a"] 'S' ['a'] :=
    Derives.unit 'S' 'a' (by decide)
  induction n with
  | zero => exact d1
  | succ n ih =>
    have := Derives.binary 'S' 'S' 'S' ['a'] (List.replicate (n + 1) 'a') (by decide)
      (by simp) (by simp [List.replicate_succ]) d1 ih
    rw [List.replicate_succ]
    exact this

theorem anbncm_length (n m : Nat) : (anbncm n m).length = n + n + m := by
  unfold anbncm
  rw [List.length_append, List.length_append, List.length_replicate, List.length_replicate,
    List.length_replicate]

/-! ## The claims of the specification -/

/-- Claim C1 fails as stated: for the grammar `S -> SS, S -> a` (in Chomsky
normal form) and the non-empty word of `2 ^ 31` letters `a`, `'S'` derives the
word, but the byte count `sizeof(table_entry_t*) * word_len * word_len` of the
table allocation wraps to 0, `table_init` stores beyond the block, and `cyk`
does not return true. -/
theorem cyk_long_word_counterexample :
    CNF [GRAMMAR_ENTRY 'S' "SS", GRAMMAR_ENTRY 'S' "a"] ∧
    List.replicate 2147483648 'a' ≠ [] ∧
    Derives [GRAMMAR_ENTRY 'S' "SS", GRAMMAR_ENTRY 'S' "a"] 'S'
      (List.replicate 2147483648 'a') ∧
    cyk [GRAMMAR_ENTRY 'S' "SS", GRAMMAR_ENTRY 'S' "a"] (List.replicate 2147483648 'a') =
      none :=
  ⟨by decide, replicate_ne_nil _ _ (by decide), derives_replicate_a 2147483647,
    cyk_wrap _ _ (List.length_replicate _ _)⟩

/-- Claim C1, amended: for a grammar in Chomsky normal form and a non-empty
word `w` whose table allocation does not wrap (`8 * |w| * |w| < 2 ^ 64`),
`cyk` returns, and it returns true if and only if `'S'` derives `w`. -/
theorem cyk_accepts_iff_derives (g : grammar_t) (w : List alpha_t) (hcnf : CNF g)
    (hw : w ≠ []) (hfit : 8 * (w.length * w.length) < 2 ^ 64) :
    ∃ b, cyk g w = some b ∧ (b = true ↔ Derives g 'S' w) :=
  cyk_decides g w hcnf hw hfit

/-- Witness of the amended claim C1 on the reference grammar and the word
`abc`. -/
theorem cyk_accepts_iff_derives_witness :
    ∃ b, cyk grammar_init ['a', 'b', 'c'] = some b ∧
      (b = true ↔ Derives grammar_init 'S' ['a', 'b', 'c']) :=
  cyk_accepts_iff_derives grammar_init ['a', 'b', 'c'] (by decide) (by decide) (by decide)

/-- Claim C2, as the code behaves: on the empty word `cyk` does not return
false; its final read `pTable[TABLE_IDX(0, 0, 1)]` falls outside the
zero-sized table, whatever the grammar. -/
theorem cyk_empty_word_out_of_bounds (g : grammar_t) : cyk g [] = none := by
  rfl

/-- Claim C3 fails as stated: the reference grammar has no rule that produces
`z`, yet on the word of `2 ^ 31` letters `z` the table allocation wraps and
`cyk` overruns the block instead of returning false. -/
theorem cyk_unknown_symbol_long_word_counterexample :
    CNF grammar_init ∧
    'z' ∈ List.replicate 2147483648 'z' ∧
    (∀ r ∈ grammar_init, r.pTerminals ≠ ['z']) ∧
    cyk grammar_init (List.replicate 2147483648 'z') = none :=
  ⟨by decide, List.mem_replicate.mpr ⟨by decide, rfl⟩, by decide,
    cyk_wrap _ _ (List.length_replicate _ _)⟩

/-- Claim C3, amended: for a grammar in Chomsky normal form, a word whose
table allocation does not wrap (`8 * |w| * |w| < 2 ^ 64`) and that contains a
symbol `c` which no rule of the grammar produces as its single right-hand
symbol is rejected: `cyk` returns false. -/
theorem cyk_rejects_unknown_symbol (g : grammar_t) (w : List alpha_t) (c : alpha_t)
    (hcnf : CNF g) (hfit : 8 * (w.length * w.length) < 2 ^ 64) (hc : c ∈ w)
    (hno : ∀ r ∈ g, r.pTerminals ≠ [c]) : cyk g w = some false := by
  have hw : w ≠ [] := List.ne_nil_of_mem hc
  obtain ⟨b, hb, hiff⟩ := cyk_decides g w hcnf hw hfit
  cases b with
  | false => exact hb
  | true =>
    obtain ⟨r, hr, hrc⟩ := derives_symbols g 'S' w (hiff.mp rfl) c hc
    exact absurd hrc (hno r hr)

/-- Witness of the amended claim C3: the reference grammar has no rule for
`z`. -/
theorem cyk_rejects_unknown_symbol_witness :
    cyk grammar_init ['a', 'b', 'z', 'c'] = some false :=
  cyk_rejects_unknown_symbol grammar_init ['a', 'b', 'z', 'c'] 'z' (by decide) (by decide)
    (by decide) (by decide)

/-- Claim C4: for a grammar in Chomsky normal form and a one-symbol word `[c]`,
`cyk` returns true if and only if the grammar lists the unit rule `S -> c`. -/
theorem cyk_single_symbol (g : grammar_t) (c : alpha_t) (hcnf : CNF g) :
    ∃ b, cyk g [c] = some b ∧ (b = true ↔ HasUnitRule g 'S' c) := by
  obtain ⟨b, hb, hiff⟩ := cyk_decides g [c] hcnf (by simp) (by simp)
  refine ⟨b, hb, hiff.trans ⟨derives_one g 'S' c, Derives.unit 'S' c⟩⟩

/-- Witness of claim C4 on a two-rule grammar that lists `S -> a`. -/
theorem cyk_single_symbol_witness :
    ∃ b, cyk [GRAMMAR_ENTRY 'S' "a", GRAMMAR_ENTRY 'S' "SS"] ['a'] = some b ∧
      (b = true ↔ HasUnitRule [GRAMMAR_ENTRY 'S' "a", GRAMMAR_ENTRY 'S' "SS"] 'S' 'a') :=
  cyk_single_symbol [GRAMMAR_ENTRY 'S' "a", GRAMMAR_ENTRY 'S' "SS"] 'a' (by decide)

/-- Claim C5 fails as stated: for the one-rule grammar `X -> a` and the word
`a`, the left-hand side of the first-listed rule is `X` and `X` is in the cell
spanning the whole word, yet `cyk` rejects. -/
theorem cyk_start_symbol_counterexample :
    spec_startSymbol [GRAMMAR_ENTRY 'X' "a"] = some 'X' ∧
    cyk_fill [GRAMMAR_ENTRY 'X' "a"] ['a'] = some [['X']] ∧
    'X' ∈ cellAt [['X']] (TABLE_IDX 1 1 1) ∧
    cyk [GRAMMAR_ENTRY 'X' "a"] ['a'] = some false := by
  decide

/-- Claim C5, amended: for every grammar and every non-empty word of length
`n` whose table allocation does not wrap (`8 * n * n < 2 ^ 64`), the fill
completes when the grammar is in Chomsky normal form, and whenever it
completes `cyk` returns true if and only if the literal symbol `'S'` is a
member of the filled cell `(n, 1)`. -/
theorem cyk_accepts_iff_S_in_top_cell (g : grammar_t) (w : List alpha_t) (hw : w ≠ [])
    (hfit : 8 * (w.length * w.length) < 2 ^ 64) :
    (CNF g → ∃ t, cyk_fill g w = some t) ∧
    ∀ t, cyk_fill g w = some t →
      ∃ b, cyk g w = some b ∧
        (b = true ↔ 'S' ∈ cellAt t (TABLE_IDX w.length w.length 1)) := by
  constructor
  · intro hcnf
    obtain ⟨t, ht, _⟩ := cyk_fill_spec g w hcnf hw hfit
    exact ⟨t, ht⟩
  · intro t ht
    exact ⟨_, cyk_of_fill g w t hw (fits_lt _ hfit) ht, cyk_final_iff _⟩

/-- Witness of the amended claim C5 on a grammar whose first rule is `X -> a`. -/
theorem cyk_accepts_iff_S_in_top_cell_witness :
    (CNF [GRAMMAR_ENTRY 'X' "a", GRAMMAR_ENTRY 'S' "XX"] →
      ∃ t, cyk_fill [GRAMMAR_ENTRY 'X' "a", GRAMMAR_ENTRY 'S' "XX"] ['a', 'a'] = some t) ∧
    ∀ t, cyk_fill [GRAMMAR_ENTRY 'X' "a", GRAMMAR_ENTRY 'S' "XX"] ['a', 'a'] = some t →
      ∃ b, cyk [GRAMMAR_ENTRY 'X' "a", GRAMMAR_ENTRY 'S' "XX"] ['a', 'a'] = some b ∧
        (b = true ↔ 'S' ∈ cellAt t (TABLE_IDX 2 2 1)) :=
  cyk_accepts_iff_S_in_top_cell [GRAMMAR_ENTRY 'X' "a", GRAMMAR_ENTRY 'S' "XX"] ['a', 'a']
    (by decide) (by decide)

/-- Claim C6 fails as stated: for the grammar `S -> SS, S -> a` (in Chomsky
normal form) and the word `aaa`, the cell spanning the whole word ends up as
`[S, S]`: it repeats `S` and has more entries than the grammar has distinct
non-terminals. -/
theorem cell_duplicates_counterexample :
    CNF [GRAMMAR_ENTRY 'S' "SS", GRAMMAR_ENTRY 'S' "a"] ∧
    ∃ t, cyk_fill [GRAMMAR_ENTRY 'S' "SS", GRAMMAR_ENTRY 'S' "a"] ['a', 'a', 'a'] = some t ∧
      cellAt t (TABLE_IDX 3 3 1) = ['S', 'S'] ∧
      ¬ (cellAt t (TABLE_IDX 3 3 1)).Nodup ∧
      ¬ (cellAt t (TABLE_IDX 3 3 1)).length ≤
        (([GRAMMAR_ENTRY 'S' "SS", GRAMMAR_ENTRY 'S' "a"].map
          grammar_entry_t.non_terminal).dedup).length :=
  ⟨by decide, _, rfl, by decide, by decide, by decide⟩

/-- Claim C6, amended: for a grammar in Chomsky normal form and a non-empty
word whose table allocation does not wrap (`8 * |w| * |w| < 2 ^ 64`), in every
table the fill passes through, and in the table it ends with, every entry of
every cell is the left-hand side of a rule, so the number of distinct symbols
of every cell is at most the number of distinct left-hand sides of the
grammar. -/
theorem cells_distinct_bounded (g : grammar_t) (w : List alpha_t) (hcnf : CNF g)
    (hw : w ≠ []) (hfit : 8 * (w.length * w.length) < 2 ^ 64) :
    (∀ t, FillReach g w t → HeadsOnly g t ∧
      ∀ c ∈ t, c.dedup.length ≤ (g.map grammar_entry_t.non_terminal).dedup.length) ∧
    ∃ t, cyk_fill g w = some t ∧ FillReach g w t := by
  constructor
  · intro t ht
    have hH := FillReach_heads g w t ht
    exact ⟨hH, distinct_le_of_heads g t hH⟩
  · obtain ⟨t, ht, _⟩ := cyk_fill_spec g w hcnf hw hfit
    exact ⟨t, ht, cyk_fill_reach g w t ht⟩

/-- Witness of the amended claim C6 on the grammar `S -> SS, S -> a`. -/
theorem cells_distinct_bounded_witness :
    (∀ t, FillReach [GRAMMAR_ENTRY 'S' "SS", GRAMMAR_ENTRY 'S' "a"] ['a', 'a', 'a'] t →
      HeadsOnly [GRAMMAR_ENTRY 'S' "SS", GRAMMAR_ENTRY 'S' "a"] t ∧
      ∀ c ∈ t, c.dedup.length ≤
        (([GRAMMAR_ENTRY 'S' "SS", GRAMMAR_ENTRY 'S' "a"].map
          grammar_entry_t.non_terminal).dedup).length) ∧
    ∃ t, cyk_fill [GRAMMAR_ENTRY 'S' "SS", GRAMMAR_ENTRY 'S' "a"] ['a', 'a', 'a'] = some t ∧
      FillReach [GRAMMAR_ENTRY 'S' "SS", GRAMMAR_ENTRY 'S' "a"] ['a', 'a', 'a'] t :=
  cells_distinct_bounded [GRAMMAR_ENTRY 'S' "SS", GRAMMAR_ENTRY 'S' "a"] ['a', 'a', 'a']
    (by decide) (by decide) (by decide)

/-- Claim C7, as the code behaves on the empty word: the final acceptance read
addresses `(span, start) = (0, 1)`, which is not a cell, and its linear index
`TABLE_IDX(0, 0, 1)` wraps to `2 ^ 64 - 1`, which is not below the allocated
size `0 * 0`; the read misses the table. -/
theorem final_read_empty_word_invalid :
    ¬ ValidCell 0 0 1 ∧
    TABLE_IDX 0 0 1 = 18446744073709551615 ∧
    ¬ TABLE_IDX 0 0 1 < size_mul 0 0 ∧
    (table_init (size_mul 0 0))[TABLE_IDX 0 0 1]? = none := by
  decide

/-- Claim C8 fails as stated: on the reference grammar `cyk` does not return
true for the word `ab`. -/
theorem cyk_ab_not_accepted : ¬ cyk grammar_init ['a', 'b'] = some true := by
  decide

/-- Claim C8, amended: on the reference grammar `cyk` returns false for the
word `ab`; the cell spanning the whole word holds `A` only. -/
theorem cyk_ab_rejected :
    cyk grammar_init ['a', 'b'] = some false ∧
    (cyk_fill grammar_init ['a', 'b']).map (fun t => cellAt t (TABLE_IDX 2 2 1)) =
      some ['A'] := by
  decide

/-- Claim C9: on the reference grammar `cyk` returns false for the word `a`. -/
theorem cyk_a_rejected : cyk grammar_init ['a'] = some false := by
  decide

/-- Claim C10 fails as stated: for the reference grammar and the non-empty
word of `2 ^ 31` letters `c` the table allocation wraps, the fill does not
complete, and there is no filled table whose cells could be as the claim
says. -/
theorem cyk_fill_long_word_counterexample :
    CNF grammar_init ∧
    List.replicate 2147483648 'c' ≠ [] ∧
    cyk_fill grammar_init (List.replicate 2147483648 'c') = none ∧
    ¬ ∃ t, cyk_fill grammar_init (List.replicate 2147483648 'c') = some t ∧
      ∀ j i, 1 ≤ j → j ≤ 2147483648 → 1 ≤ i → i ≤ 2147483648 - j + 1 →
        ∃ c, t[TABLE_IDX 2147483648 j i]? = some c ∧
          ∀ A, A ∈ c ↔
            Derives grammar_init A (((List.replicate 2147483648 'c').drop (i - 1)).take j) := by
  have e := cyk_fill_wrap grammar_init (List.replicate 2147483648 'c')
    (List.length_replicate _ _)
  refine ⟨by decide, replicate_ne_nil _ _ (by decide), e, ?_⟩
  rintro ⟨t, ht, _⟩
  rw [e] at ht
  exact absurd ht (by simp)

/-- Claim C10, amended: for a grammar in Chomsky normal form and a non-empty
word `w` of length `n` whose table allocation does not wrap
(`8 * n * n < 2 ^ 64`), the fill completes, and in the filled table every
valid cell `(j, i)` exists and holds a symbol `A` if and only if `A` derives
the substring of `w` of length `j` that starts at the 1-based position `i`. -/
theorem cyk_fill_cells_iff_derives (g : grammar_t) (w : List alpha_t) (hcnf : CNF g)
    (hw : w ≠ []) (hfit : 8 * (w.length * w.length) < 2 ^ 64) :
    ∃ t, cyk_fill g w = some t ∧
      ∀ j i, 1 ≤ j → j ≤ w.length → 1 ≤ i → i ≤ w.length - j + 1 →
        ∃ c, t[TABLE_IDX w.length j i]? = some c ∧
          ∀ A, A ∈ c ↔ Derives g A ((w.drop (i - 1)).take j) := by
  have hn := fits_lt _ hfit
  obtain ⟨t, ht, hlen, hS, hC⟩ := cyk_fill_spec g w hcnf hw hfit
  refine ⟨t, ht, fun j i h1 h2 h3 h4 => ?_⟩
  have hv : ValidCell w.length j i := ⟨h1, h2, h3, by omega⟩
  have hlt : TABLE_IDX w.length j i < t.length := by
    rw [hlen]; exact TABLE_IDX_lt _ _ _ hn hv
  refine ⟨_, getElem?_eq_some_cellAt t _ hlt, fun A => ⟨hS j i hv A, ?_⟩⟩
  exact hC j i hv (by omega) A

/-- Witness of the amended claim C10 on the reference grammar and the word `aabbc`. -/
theorem cyk_fill_cells_iff_derives_witness :
    ∃ t, cyk_fill grammar_init ['a', 'a', 'b', 'b', 'c'] = some t ∧
      ∀ j i, 1 ≤ j → j ≤ 5 → 1 ≤ i → i ≤ 5 - j + 1 →
        ∃ c, t[TABLE_IDX 5 j i]? = some c ∧
          ∀ A, A ∈ c ↔
            Derives grammar_init A ((['a', 'a', 'b', 'b', 'c'].drop (i - 1)).take j) :=
  cyk_fill_cells_iff_derives grammar_init ['a', 'a', 'b', 'b', 'c'] (by decide) (by decide)
    (by decide)

/-- Claim C14: `table_push_back` on an in-range slot succeeds, keeps the size
of the table, makes the cell of that slot its previous contents followed by
`a` as last element, and leaves every other slot unchanged. -/
theorem table_push_back_frame (t : table_t) (idx : Nat) (a : alpha_t) (h : idx < t.length) :
    ∃ t', table_push_back t idx a = some t' ∧ t'.length = t.length ∧
      (∃ c, t[idx]? = some c ∧ t'[idx]? = some (c ++ [a])) ∧
      ∀ idx', idx' ≠ idx → t'[idx']? = t[idx']? := by
  refine ⟨_, table_push_back_some t idx a h, by simp, ⟨cellAt t idx, ?_, ?_⟩, ?_⟩
  · exact getElem?_eq_some_cellAt t idx h
  · simp [h]
  · intro idx' hne
    exact List.getElem?_set_ne (fun e => hne e.symm)

/-- Witness of claim C14: a push into slot 1 of a three-slot table. -/
theorem table_push_back_frame_witness :
    ∃ t', table_push_back [['A'], ['B', 'C'], []] 1 'D' = some t' ∧
      t'.length = [['A'], ['B', 'C'], []].length ∧
      (∃ c, [['A'], ['B', 'C'], []][1]? = some c ∧ t'[1]? = some (c ++ ['D'])) ∧
      ∀ idx', idx' ≠ 1 → t'[idx']? = [['A'], ['B', 'C'], []][idx']? :=
  table_push_back_frame [['A'], ['B', 'C'], []] 1 'D' (by decide)

/-- Claim C15 fails as stated: for the word length `n = 2 ^ 32 + 1` the two
distinct valid cells `(1, 2 ^ 32 + 1)` and `(2 ^ 32 + 1, 1)` have the same
`TABLE_IDX`, because the `size_t` product `(start - 1) * n` wraps. -/
theorem TABLE_IDX_collision_counterexample :
    ValidCell 4294967297 1 4294967297 ∧
    ValidCell 4294967297 4294967297 1 ∧
    TABLE_IDX 4294967297 1 4294967297 = TABLE_IDX 4294967297 4294967297 1 ∧
    ¬ (1 = 4294967297 ∧ 4294967297 = 1) := by
  decide

/-- Claim C15, amended: for a word length `n` with `1 <= n < 2 ^ 32` (the
range in which the index arithmetic does not wrap), `TABLE_IDX` of a valid
cell is `(span - 1) + (start - 1) * n`, and two valid cells with the same
index are the same cell. -/
theorem TABLE_IDX_injective (n span start span' start' : Nat)
    (hn : n < 2 ^ 32) (h1 : 1 ≤ span) (h2 : span ≤ n) (h3 : 1 ≤ start)
    (h4 : start ≤ n - span + 1) (h1' : 1 ≤ span') (h2' : span' ≤ n) (h3' : 1 ≤ start')
    (h4' : start' ≤ n - span' + 1) :
    TABLE_IDX n span start = (span - 1) + (start - 1) * n ∧
    (TABLE_IDX n span start = TABLE_IDX n span' start' → span = span' ∧ start = start') := by
  have hv : ValidCell n span start := ⟨h1, h2, h3, by omega⟩
  have hv' : ValidCell n span' start' := ⟨h1', h2', h3', by omega⟩
  exact ⟨TABLE_IDX_eq n span start hn hv, TABLE_IDX_inj n span start span' start' hn hv hv'⟩

/-- Witness of the amended claim C15 for the cells `(2, 3)` and `(4, 1)` of a
word of length five. -/
theorem TABLE_IDX_injective_witness :
    TABLE_IDX 5 2 3 = (2 - 1) + (3 - 1) * 5 ∧
    (TABLE_IDX 5 2 3 = TABLE_IDX 5 4 1 → 2 = 4 ∧ 3 = 1) :=
  TABLE_IDX_injective 5 2 3 4 1 (by decide) (by decide) (by decide) (by decide) (by decide)
    (by decide) (by decide) (by decide) (by decide)

/-- Claim C18: `table_char_exists` returns true exactly when the symbol is an
entry of the cell, and false on the empty cell. -/
theorem table_char_exists_spec (c : cell_t) (a : alpha_t) :
    (table_char_exists c a = true ↔ a ∈ c) ∧ table_char_exists [] a = false :=
  ⟨table_char_exists_iff c a, rfl⟩

/-- Claim C11 fails as stated: for the reference grammar and the non-empty
word of `2 ^ 31` letters `a` the table allocation wraps, `table_init` stores
beyond the block, and there is no table after the base-case loop. -/
theorem cyk_base_long_word_counterexample :
    EntriesBuilt grammar_init ∧
    List.replicate 2147483648 'a' ≠ [] ∧
    cyk_after_base grammar_init (List.replicate 2147483648 'a') = none ∧
    ¬ ∃ t, cyk_after_base grammar_init (List.replicate 2147483648 'a') = some t := by
  have e := cyk_after_base_wrap grammar_init (List.replicate 2147483648 'a')
    (List.length_replicate _ _)
  refine ⟨by decide, replicate_ne_nil _ _ (by decide), e, ?_⟩
  rintro ⟨t, ht⟩
  rw [e] at ht
  exact absurd ht (by simp)

/-- Claim C11, amended: for a grammar whose entries are filled in as
`GRAMMAR_ENTRY` does and a word `w` of length `n` whose table allocation does
not wrap (`8 * n * n < 2 ^ 64`), the allocation and the base-case loop
complete, and in the table they leave, for every position `i` in `1..n` the
cell `(1, i)` is exactly the list, in rule order, of the left-hand sides of
the rules whose right-hand side is the single symbol `w[i]` (the empty list
when there is no such rule), and every valid cell of span at least 2 is
empty. -/
theorem cyk_base_cells (g : grammar_t) (w : List alpha_t) (hb : EntriesBuilt g)
    (hfit : 8 * (w.length * w.length) < 2 ^ 64) :
    ∃ t, cyk_after_base g w = some t ∧
      (∀ i, 1 ≤ i → i ≤ w.length → ∃ c, w[i - 1]? = some c ∧
        t[TABLE_IDX w.length 1 i]? = some (unit_heads g c) ∧
        ((∀ r ∈ g, r.pTerminals ≠ [c]) → t[TABLE_IDX w.length 1 i]? = some [])) ∧
      (∀ j i, 2 ≤ j → j ≤ w.length → 1 ≤ i → i ≤ w.length - j + 1 →
        t[TABLE_IDX w.length j i]? = some []) := by
  have hn := fits_lt _ hfit
  have hlen0 : (table_init (size_mul w.length w.length)).length = w.length * w.length := by
    rw [size_mul_eq _ _ (sq_lt_SIZE_MOD _ hn)]
    simp [table_init]
  obtain ⟨t, e, hlen, hcells, hother⟩ :=
    cyk_base_positions_exact g w hn hb (upto 1 w.length)
      (fun i hi => (mem_upto _ _ _).mp hi) (List.nodup_range' _ _) _ hlen0
      (fun i _ => cellAt_table_init _ _)
  have e' : cyk_after_base g w = some t := by
    unfold cyk_after_base
    simp only [cyk_alloc_fits _ hfit, Option.some_bind]
    exact e
  refine ⟨t, e', ?_, ?_⟩
  · intro i h1 h2
    obtain ⟨c, hc, _⟩ := word_at_get w i h1 h2 hn
    have hv : ValidCell w.length 1 i := ⟨le_refl 1, by omega, h1, by omega⟩
    have hlt : TABLE_IDX w.length 1 i < t.length := by
      rw [hlen]; exact TABLE_IDX_lt _ _ _ hn hv
    have hcell := hcells i ((mem_upto _ _ _).mpr ⟨h1, h2⟩) c hc
    have hget : t[TABLE_IDX w.length 1 i]? = some (unit_heads g c) := by
      rw [getElem?_eq_some_cellAt t _ hlt, hcell]
    refine ⟨c, hc, hget, fun hno => ?_⟩
    rw [hget]
    have : unit_heads g c = [] := by
      unfold unit_heads
      rw [List.map_eq_nil_iff, List.filter_eq_nil_iff]
      intro r hr
      simpa using hno r hr
    rw [this]
  · intro j i h1 h2 h3 h4
    have hv : ValidCell w.length j i := ⟨by omega, h2, h3, by omega⟩
    have hlt : TABLE_IDX w.length j i < t.length := by
      rw [hlen]; exact TABLE_IDX_lt _ _ _ hn hv
    rw [getElem?_eq_some_cellAt t _ hlt, hother, cellAt_table_init]
    intro i' hi'
    have hi'' := (mem_upto _ _ _).mp hi'
    have hv' : ValidCell w.length 1 i' := ⟨le_refl 1, by omega, hi''.1, by omega⟩
    exact fun e => (TABLE_IDX_ne_of_span_lt _ 1 i' j i hn hv' hv (by omega)) e.symm

/-- Witness of the amended claim C11 on the reference grammar and the word
`abc`. -/
theorem cyk_base_cells_witness :
    ∃ t, cyk_after_base grammar_init ['a', 'b', 'c'] = some t ∧
      (∀ i, 1 ≤ i → i ≤ 3 → ∃ c, ['a', 'b', 'c'][i - 1]? = some c ∧
        t[TABLE_IDX 3 1 i]? = some (unit_heads grammar_init c) ∧
        ((∀ r ∈ grammar_init, r.pTerminals ≠ [c]) → t[TABLE_IDX 3 1 i]? = some [])) ∧
      (∀ j i, 2 ≤ j → j ≤ 3 → 1 ≤ i → i ≤ 3 - j + 1 → t[TABLE_IDX 3 j i]? = some []) :=
  cyk_base_cells grammar_init ['a', 'b', 'c'] (by decide) (by decide)

/-- Claim C13 fails as stated: the word `a b c^(2^31 - 2)` has the form
`a^n b^n c^m` with `n = 1` and `m = 2^31 - 2`, but its table allocation wraps
and `cyk` on the reference grammar does not return true. -/
theorem cyk_grammar_init_long_word_counterexample :
    (∃ n m, 1 ≤ n ∧ 1 ≤ m ∧ anbncm 1 2147483646 = anbncm n m) ∧
    cyk grammar_init (anbncm 1 2147483646) = none :=
  ⟨⟨1, 2147483646, by decide, by decide, rfl⟩, cyk_wrap _ _ (anbncm_length 1 2147483646)⟩

/-- Claim C13, amended: on the reference grammar of `grammar_init`, for every
word `w` whose table allocation does not wrap (`8 * |w| * |w| < 2 ^ 64`),
`cyk` returns true if and only if `w` is `a^n b^n c^m` with `n >= 1` and
`m >= 1`; on every such non-empty word it returns. -/
theorem cyk_grammar_init_language (w : List alpha_t)
    (hfit : 8 * (w.length * w.length) < 2 ^ 64) :
    (cyk grammar_init w = some true ↔ ∃ n m, 1 ≤ n ∧ 1 ≤ m ∧ w = anbncm n m) ∧
    (w ≠ [] → ∃ b, cyk grammar_init w = some b) := by
  by_cases hw : w = []
  · subst hw
    refine ⟨⟨fun h => ?_, ?_⟩, fun h => absurd rfl h⟩
    · exact absurd h (by decide)
    · rintro ⟨n, m, h1, _, h⟩
      have := congrArg List.length h
      simp [anbncm] at this
      omega
  · obtain ⟨b, hb, hiff⟩ := cyk_decides grammar_init w (by decide) hw hfit
    refine ⟨⟨fun h => ?_, ?_⟩, fun _ => ⟨b, hb⟩⟩
    · rw [hb] at h
      exact refLang_S w (derives_refLang 'S' w (hiff.mp (Option.some.inj h)))
    · rintro ⟨n, m, h1, h2, rfl⟩
      rw [hb, hiff.mpr (derives_S n m h1 h2)]

/-- Witness of the amended claim C13 on the word `aabbc`. -/
theorem cyk_grammar_init_language_witness :
    (cyk grammar_init ['a', 'a', 'b', 'b', 'c'] = some true ↔
      ∃ n m, 1 ≤ n ∧ 1 ≤ m ∧ ['a', 'a', 'b', 'b', 'c'] = anbncm n m) ∧
    (['a', 'a', 'b', 'b', 'c'] ≠ [] → ∃ b, cyk grammar_init ['a', 'a', 'b', 'b', 'c'] = some b) :=
  cyk_grammar_init_language ['a', 'a', 'b', 'b', 'c'] (by decide)

/-- Claim C16 fails as stated: for the input `a`, NUL, `b`, newline the
characters that precede the first line end are `a`, NUL, `b`, but the word
`cyk` receives is the C string at `pWord`, which is `a` alone. -/
theorem main_word_nul_counterexample :
    ['a', NUL, 'b', '\n'].takeWhile (fun c => !is_line_end c) = ['a', NUL, 'b'] ∧
    main_word ['a', NUL, 'b', '\n'] = some ['a'] ∧
    main_word ['a', NUL, 'b', '\n'] ≠
      some (['a', NUL, 'b', '\n'].takeWhile (fun c => !is_line_end c)) := by
  decide

/-- Claim C16, amended: for every input (shorter than `2 ^ 63` characters) the
word `main` hands to `cyk` is exactly the sequence of input characters that
precede the first `'\n'`, `'\r'` or NUL character (the whole input when it has
none), unchanged and in order; when no NUL precedes the first line end it is
the sequence of characters that precede the first `'\n'` or `'\r'`. -/
theorem main_word_is_line (input : List alpha_t) (h : input.length < 2 ^ 63) :
    main_word input = some (input.takeWhile (fun c => !is_line_end c && c != NUL)) ∧
    (NUL ∉ input.takeWhile (fun c => !is_line_end c) →
      main_word input = some (input.takeWhile (fun c => !is_line_end c))) := by
  have e := main_word_spec input h
  constructor
  · rw [e, takeWhile_takeWhile]
  · intro hno
    rw [e, takeWhile_of_all]
    intro x hx
    have : x ≠ NUL := fun e' => hno (e' ▸ hx)
    simpa using this

/-- Witness of the amended claim C16 on the input `abc`, newline, `x`. -/
theorem main_word_is_line_witness :
    main_word ['a', 'b', 'c', '\n', 'x'] =
      some (['a', 'b', 'c', '\n', 'x'].takeWhile (fun c => !is_line_end c && c != NUL)) ∧
    (NUL ∉ ['a', 'b', 'c', '\n', 'x'].takeWhile (fun c => !is_line_end c) →
      main_word ['a', 'b', 'c', '\n', 'x'] =
        some (['a', 'b', 'c', '\n', 'x'].takeWhile (fun c => !is_line_end c))) :=
  main_word_is_line ['a', 'b', 'c', '\n', 'x'] (by decide)

/-- Claim C17: for every input (shorter than `2 ^ 63` characters), started
from `word_len = 0` and `arr_len = 16`, after any number `k` of iterations of
the read loop (none of the first `k` characters being a line end) the state
satisfies `word_len + 1 <= arr_len` with `arr_len` the size of the buffer; the
terminator write `pWord[word_len] = 0` is then in bounds, and so is the
character write of the next iteration, which re-establishes the invariant. -/
theorem read_loop_invariant (input : List alpha_t) (k : Nat) (h : input.length < 2 ^ 63)
    (hk : ∀ c ∈ input.take k, is_line_end c = false) :
    ∃ s, main_read_loop (input.take k) read_init = some s ∧
      main_read_loop input read_init = main_read_loop (input.drop k) s ∧
      s.word_len + 1 ≤ s.arr_len ∧ s.pWord.length = s.arr_len ∧
      (∃ p, buf_write s.pWord s.word_len NUL = some p) ∧
      (∀ c rest, input.drop k = c :: rest →
        ∃ s', main_read_body c s = some s' ∧ s'.word_len + 1 ≤ s'.arr_len ∧
          s'.pWord.length = s'.arr_len) := by
  have hlen : (input.take k).length ≤ input.length := by simp
  obtain ⟨s, e, hI, hw, _⟩ :=
    main_read_loop_spec (input.take k) read_init (by decide) (by simp [read_init]; omega)
  have hall := takeWhile_of_all (fun c => !is_line_end c) (input.take k)
    (fun x hx => by simp [hk x hx])
  rw [hall] at hw
  refine ⟨s, e, ?_, hI.1, hI.2, ⟨_, buf_write_some _ _ _ (by have := hI.1; have := hI.2; omega)⟩,
    ?_⟩
  · have := main_read_loop_append (input.take k) (input.drop k) read_init hk
    rw [List.take_append_drop, e, Option.some_bind] at this
    exact this
  · intro c rest hd
    have hklt : k < input.length := by
      by_contra hge
      rw [List.drop_eq_nil_of_le (by omega)] at hd
      exact absurd hd (by simp)
    have hwl : s.word_len = k := by
      rw [hw]
      simp [read_init]
      omega
    obtain ⟨s', e', hI', _, _⟩ := main_read_body_spec c s hI (by omega)
    exact ⟨s', e', hI'.1, hI'.2⟩

/-- Witness of claim C17: the state after 20 iterations on an input of 24
letters and a newline. -/
theorem read_loop_invariant_witness :
    ∃ s, main_read_loop ((List.replicate 24 'a' ++ ['\n']).take 20) read_init = some s ∧
      main_read_loop (List.replicate 24 'a' ++ ['\n']) read_init =
        main_read_loop ((List.replicate 24 'a' ++ ['\n']).drop 20) s ∧
      s.word_len + 1 ≤ s.arr_len ∧ s.pWord.length = s.arr_len ∧
      (∃ p, buf_write s.pWord s.word_len NUL = some p) ∧
      (∀ c rest, (List.replicate 24 'a' ++ ['\n']).drop 20 = c :: rest →
        ∃ s', main_read_body c s = some s' ∧ s'.word_len + 1 ≤ s'.arr_len ∧
          s'.pWord.length = s'.arr_len) :=
  read_loop_invariant (List.replicate 24 'a' ++ ['\n']) 20 (by decide) (by decide)

end CYK

